import Mathlib

/-!
Verification of the theme substitutor (`src/substitutor.py`).

The Python program is shallowly embedded: Python values (the JSON/TOML trees
the program manipulates) become the inductive type `Val`; Python functions
become Lean functions of the same name; a Python `raise`/`TypeError`/
`AssertionError` becomes `Except.error ()`; Python's unbounded recursion and
`while` loops take an explicit fuel argument (`Nat`), with fuel exhaustion
also mapped to `Except.error ()`.  String scanning is done on `List Char`
throughout so that every definition evaluates by kernel reduction.
-/

set_option maxRecDepth 4000

/-- A Python value as manipulated by the substitutor: JSON/TOML trees.
`dict` models a Python `dict` with string keys kept in insertion order. -/
inductive Val where
  | null
  | bool (b : Bool)
  | int (n : Int)
  | str (s : String)
  | list (xs : List Val)
  | dict (kvs : List (String × Val))

namespace Sub

/-! ### Character and string helpers (Python `str` operations on `List Char`) -/

/-- Python whitespace for `str.strip` and the regex class `\s` (ASCII part). -/
def isPyWs (c : Char) : Bool :=
  c = ' ' || c = '\t' || c = '\n' || c = '\r' || c = '\x0b' || c = '\x0c'

/-- Python `str.strip()` on a character list. -/
def pyStrip (cs : List Char) : List Char :=
  ((cs.dropWhile isPyWs).reverse.dropWhile isPyWs).reverse

/-- Python `str.split(sep)` for a one-character separator (keeps empty parts). -/
def pySplitGo (sep : Char) : List Char → List Char → List (List Char)
  | [], acc => [acc.reverse]
  | c :: cs, acc =>
    if c = sep then acc.reverse :: pySplitGo sep cs []
    else pySplitGo sep cs (c :: acc)

/-- Python `str.split(sep)` for a one-character separator. -/
def pySplit (sep : Char) (cs : List Char) : List (List Char) := pySplitGo sep cs []

/-- One step list of Python `str.replace` (all occurrences, left to right,
non-overlapping); `fuel` is at least the length of the scanned list. -/
def pyReplaceGo (pat repl : List Char) : Nat → List Char → List Char
  | 0, cs => cs
  | _ + 1, [] => []
  | k + 1, c :: cs =>
    if pat.isPrefixOf (c :: cs) then
      repl ++ pyReplaceGo pat repl k ((c :: cs).drop pat.length)
    else
      c :: pyReplaceGo pat repl k cs

/-- Python `str.replace(pat, repl)` (all occurrences, left to right). -/
def pyReplace (pat repl cs : List Char) : List Char :=
  pyReplaceGo pat repl cs.length cs

/-- Python `str.isdigit()` for ASCII content (`[0-9]+`, nonempty). -/
def pyIsDigit (cs : List Char) : Bool :=
  !cs.isEmpty && cs.all Char.isDigit

/-- Parse an ASCII digit string to a `Nat` (Python `int(s)` for digit input). -/
def digitsToNat (cs : List Char) : Nat :=
  cs.foldl (fun a c => 10 * a + (c.toNat - 48)) 0

/-- Membership of a character in a character list (Python `c in s`). -/
def hasChar (c : Char) (cs : List Char) : Bool := cs.contains c

/-! ### `resolve_variable` (src/substitutor.py lines 35-58) -/

/-- The regex class `[a-zA-Z0-9]` used by `ALPHA_PATTERN`. -/
def isAlphaNum (c : Char) : Bool := c.isAlpha || c.isDigit

/-- `re.search(ALPHA_PATTERN, s)`: the first occurrence of `..` followed by two
alphanumerics; returns the two-character alpha group. -/
def findAlphaL : List Char → Option (List Char)
  | c1 :: c2 :: a :: b :: rest =>
    if c1 = '.' && c2 = '.' && isAlphaNum a && isAlphaNum b then some [a, b]
    else findAlphaL (c2 :: a :: b :: rest)
  | _ => none

/-- `re.search(ALPHA_PATTERN, var_name)` on a string. -/
def findAlpha (s : String) : Option (List Char) := findAlphaL s.data

/-- First-match lookup in an association list (semantics of a Python `dict`
whose keys are unique). -/
def lookupStr (k : String) : List (String × Val) → Option Val
  | [] => none
  | (k', v) :: rest => if k' = k then some v else lookupStr k rest

/-- The dotted-path walk of `resolve_variable` (lines 50-58): split on `.`,
descend through nested dicts, `None` when a segment is missing or the current
node is not a dict.  This is exactly `resolve_variable` with `had_alpha=True`,
which skips the alpha block and only walks the path. -/
def resolvePathParts : List String → Val → Option Val
  | [], cur => some cur
  | p :: ps, cur =>
    match cur with
    | .dict kvs =>
      match lookupStr p kvs with
      | some v => resolvePathParts ps v
      | none => none
    | _ => none

/-- `resolve_variable(var_name, toml_data, had_alpha=True)`: the plain
dotted-path walk. -/
def resolvePath (varName : String) (toml : Val) : Option Val :=
  resolvePathParts ((pySplit '.' varName.data).map String.mk) toml

/-- Python truthiness test `not value` (over `Option Val`, `none` = `None`). -/
def isFalsy : Option Val → Bool
  | none => true
  | some .null => true
  | some (.bool b) => !b
  | some (.int n) => n = 0
  | some (.str s) => s.data.isEmpty
  | some (.list xs) => xs.isEmpty
  | some (.dict kvs) => kvs.isEmpty

/-- The `while isinstance(value, str) and value.startswith('$')` loop inside
the alpha branch of `resolve_variable`: repeatedly re-resolve `value[1:]` with
`had_alpha=True`.  Fuel exhaustion models nontermination on cyclic bindings. -/
def derefChain : Nat → Option Val → Val → Except Unit (Option Val)
  | fuel, some (.str s), toml =>
    match s.data with
    | '$' :: rest =>
      (match fuel with
       | 0 => .error ()
       | fuel + 1 => derefChain fuel (resolvePath (String.mk rest) toml) toml)
    | _ => .ok (some (.str s))
  | _, v, _ => .ok v

/-- `resolve_variable(var_name, toml_data)` (lines 35-58, `had_alpha=False`).
When an alpha token `..XX` is present it is stripped (all occurrences, as
Python `str.replace` does), the remaining name resolved, `$`-chains followed,
and then: a falsy result gives `None`; a result that itself still contains an
alpha token is returned unchanged; a truthy string gets `XX` appended; a
truthy non-string reaches `re.search(ALPHA_PATTERN, value)` which raises
`TypeError` in Python — modelled as `.error ()`. -/
def resolve_variable (fuel : Nat) (varName : String) (toml : Val) :
    Except Unit (Option Val) :=
  match findAlpha varName with
  | none => .ok (resolvePath varName toml)
  | some alpha => do
    let vn := String.mk (pyReplace ('.' :: '.' :: alpha) [] varName.data)
    let value ← derefChain fuel (resolvePath vn toml) toml
    if isFalsy value then .ok none
    else
      match value with
      | some (.str s) =>
        if (findAlphaL s.data).isSome then .ok (some (.str s))
        else .ok (some (.str (String.mk (s.data ++ alpha))))
      | _ => .error ()

/-! ### Decimal representation of numbers (Python `str(n)` / f-string formatting) -/

/-- The decimal digit character for `d < 10`. -/
def digitChar10 (d : Nat) : Char := Char.ofNat (48 + d)

/-- Fuel-driven decimal digits accumulator (most significant first). -/
def natReprGo : Nat → Nat → List Char → List Char
  | 0, _, acc => acc
  | k + 1, n, acc =>
    if n < 10 then digitChar10 n :: acc
    else natReprGo k (n / 10) (digitChar10 (n % 10) :: acc)

/-- Decimal representation of a `Nat` (Python `str(n)`). -/
def natRepr (n : Nat) : List Char := natReprGo (n + 1) n []

/-- Decimal representation of an `Int` (Python `str(i)`, `json.dumps(i)`). -/
def intReprL : Int → List Char
  | .ofNat n => natRepr n
  | .negSucc n => '-' :: natRepr (n + 1)

/-! ### `json.dumps` fragments used by the replacer -/

/-- Lowercase hex digit. -/
def hexDig (n : Nat) : Char := if n < 10 then Char.ofNat (48 + n) else Char.ofNat (87 + n)

/-- `json.dumps` escaping of one character (default `ensure_ascii=True`;
astral characters would use surrogate pairs, not needed by this development). -/
def jsonEscapeChar (c : Char) : List Char :=
  if c = '"' then ['\\', '"']
  else if c = '\\' then ['\\', '\\']
  else if c = '\n' then ['\\', 'n']
  else if c = '\t' then ['\\', 't']
  else if c = '\r' then ['\\', 'r']
  else if c.toNat < 32 || c.toNat > 126 then
    ['\\', 'u', hexDig (c.toNat / 4096 % 16), hexDig (c.toNat / 256 % 16),
     hexDig (c.toNat / 16 % 16), hexDig (c.toNat % 16)]
  else [c]

/-- `json.dumps` of a string value. -/
def jsonStrL (cs : List Char) : List Char :=
  '"' :: List.foldr (fun c acc => jsonEscapeChar c ++ acc) ['"'] cs

/-- `json.dumps` of a list of strings (default separator `", "`). -/
def jsonListOfStrings (items : List (List Char)) : List Char :=
  '[' :: (List.intercalate (", ").data (items.map jsonStrL)) ++ [']']

/-! ### The substitution patterns (src/substitutor.py lines 14-15)

`FILE_PATTERN = "(\$[a-zA-Z0-9._]+(?:\s*,\s*\$[a-zA-Z0-9._]+)*)"` (quoted)
`REC_PATTERN  =  (\$[a-zA-Z0-9._]+(?:\s*,\s*\$[a-zA-Z0-9._]+)*)`  (bare)

Because the candidate character class excludes `"`, `,` and whitespace, the
regex backtracking never produces a different match than the greedy parse
below, so `re.sub`'s leftmost non-overlapping scan is modelled directly. -/

/-- The regex class `[a-zA-Z0-9._]` of a candidate variable name. -/
def isVarChar (c : Char) : Bool := isAlphaNum c || c = '.' || c = '_'

/-- Parse `\$[a-zA-Z0-9._]+` at the current position (greedy). -/
def parseCand : List Char → Option (List Char × List Char)
  | '$' :: cs =>
    let name := cs.takeWhile isVarChar
    if name.isEmpty then none else some ('$' :: name, cs.dropWhile isVarChar)
  | _ => none

/-- Parse `(?:\s*,\s*\$name)*` greedily; returns consumed text and the rest. -/
def parseUnits : Nat → List Char → (List Char × List Char)
  | 0, cs => ([], cs)
  | k + 1, cs =>
    match (cs.dropWhile isPyWs) with
    | ',' :: r2 =>
      (match parseCand (r2.dropWhile isPyWs) with
       | some (cand, r4) =>
         let (more, rest) := parseUnits k r4
         ((cs.takeWhile isPyWs) ++ ',' :: (r2.takeWhile isPyWs) ++ cand ++ more, rest)
       | none => ([], cs))
    | _ => ([], cs)

/-- Parse a whole capture group (a fallback chain) at the current position. -/
def parseGroup (cs : List Char) : Option (List Char × List Char) :=
  match parseCand cs with
  | some (cand, r) =>
    let (units, rest) := parseUnits r.length r
    some (cand ++ units, rest)
  | none => none

/-- Try `FILE_PATTERN` at the current position: a quoted fallback chain. -/
def tryFileAt : List Char → Option (List Char × List Char)
  | '"' :: cs =>
    (match parseGroup cs with
     | some (g, '"' :: rest) => some (g, rest)
     | _ => none)
  | _ => none

/-- A piece of the scanned text: a literal character or a matched group. -/
inductive Chunk where
  | lit (c : Char)
  | grp (g : List Char)

/-- The left-to-right non-overlapping scan of `re.sub`; fuel is the text
length (every step consumes at least one character). -/
def lexGo (filePat : Bool) : Nat → List Char → List Chunk
  | 0, cs => cs.map Chunk.lit
  | _ + 1, [] => []
  | k + 1, c :: cs =>
    match (if filePat then tryFileAt (c :: cs) else parseGroup (c :: cs)) with
    | some (g, rest) => Chunk.grp g :: lexGo filePat k rest
    | none => Chunk.lit c :: lexGo filePat k cs

/-- Scan a text into literal pieces and pattern matches. -/
def lexText (filePat : Bool) (cs : List Char) : List Chunk :=
  lexGo filePat cs.length cs

/-! ### `substitute_variables` (src/substitutor.py lines 60-107) -/

/-- `isinstance(value, (str, int, float, list))` (floats do not occur in this
development's value type). -/
def isSubstitutable : Val → Bool
  | .str _ => true
  | .int _ => true
  | .list _ => true
  | _ => false

/-- `isinstance(value, bool)`. -/
def isBoolVal : Val → Bool
  | .bool _ => true
  | _ => false

/-- Element-wise substitution over a resolved list value: Python applies
`substitute_variables(item, ..., recursive=True, quotes=False)` to every item;
`re.sub` raises `TypeError` on a non-string item. `recur t q` is the recursive
substitution call at smaller fuel. -/
def itemsSubst (recur : String → Bool → Except Unit String) :
    List Val → Except Unit (List (List Char))
  | [] => .ok []
  | .str s :: rest => do
    let r ← recur s false
    let more ← itemsSubst recur rest
    .ok (r.data :: more)
  | _ :: _ => .error ()

/-- The candidate loop of `replacer` (lines 64-100).  `lastName` is
`var_names[-1]` — the stripped but not `$`-stripped last candidate, compared
against the `$`-stripped loop variable when deciding whether to try the
parent (top-level segment) of the final candidate. -/
def replacerList (resolveFuel : Nat) (recur : String → Bool → Except Unit String)
    (toml : Val) (quotes : Bool) (lastName : List Char) :
    List (List Char) → Except Unit String
  | [] => .ok "null"
  | vn :: rest => do
    let varName := if vn.head? = some '$' then vn.drop 1 else vn
    let v0 ← resolve_variable resolveFuel (String.mk varName) toml
    let value ←
      if v0.isNone ∧ varName = lastName then
        resolve_variable resolveFuel (String.mk ((pySplit '.' varName).headD [])) toml
      else (.ok v0 : Except Unit (Option Val))
    match value with
    | none => replacerList resolveFuel recur toml quotes lastName rest
    | some v =>
      if isBoolVal v then replacerList resolveFuel recur toml quotes lastName rest
      else if !isSubstitutable v then replacerList resolveFuel recur toml quotes lastName rest
      else
        match v with
        | .list items => do
          let strs ← itemsSubst recur items
          .ok (String.mk (jsonListOfStrings strs))
        | .str s =>
          if hasChar '$' s.data then recur s quotes
          else if quotes then .ok (String.mk (jsonStrL s.data))
          else .ok s
        | .int n => .ok (String.mk (intReprL n))
        | _ => .error ()

/-- The `replacer` function (lines 61-100) applied to a matched group. -/
def replacerBody (resolveFuel : Nat) (recur : String → Bool → Except Unit String)
    (toml : Val) (quotes : Bool) (g : List Char) : Except Unit String :=
  let varNames := (pySplit ',' g).map pyStrip
  replacerList resolveFuel recur toml quotes (varNames.getLastD []) varNames

/-- Reassembly of the substituted text from scanned chunks. -/
def goChunks (repl : List Char → Except Unit String) :
    List Chunk → Except Unit String
  | [] => .ok ""
  | .lit c :: rest => do
    let r ← goChunks repl rest
    .ok (String.mk (c :: r.data))
  | .grp g :: rest => do
    let s ← repl g
    let r ← goChunks repl rest
    .ok (String.mk (s.data ++ r.data))

/-- `substitute_variables(text, toml_data, recursive, quotes)` (lines 60-107):
`re.sub` of `FILE_PATTERN` (or `REC_PATTERN` when `recursive`) with the
replacer.  The fuel bounds the recursive re-expansion depth (Python recurses
unboundedly; cyclic bindings would not terminate). -/
def substitute_variables : Nat → String → Val → Bool → Bool → Except Unit String :=
  fun fuel =>
    Nat.rec (motive := fun _ => String → Val → Bool → Bool → Except Unit String)
      (fun _ _ _ _ => .error ())
      (fun f ih text toml recursive quotes =>
        goChunks (replacerBody f (fun t q => ih t toml true q) toml quotes)
          (lexText (!recursive) text.data))
      fuel

/-! ### A fragment of Python `re` semantics

`apply_regex_overrides` and `wildcard_to_regex` rely on `re.match`.  The
fragment modelled here covers literal characters, escaped punctuation,
`.`/`\w` classes, their starred forms, and the `^`/`$` anchors — exactly what
`wildcard_to_regex` emits; a pattern outside the fragment is `.error ()`. -/

/-- A character class that can be starred. -/
inductive RCls where
  | anyc
  | word
  | single (c : Char)

/-- One token of a parsed regular expression. -/
inductive RTok where
  | lit (c : Char)
  | one (cl : RCls)
  | star (cl : RCls)

/-- Class membership: `.` is any character except newline; `\w` is the ASCII
word class (theme keys are ASCII; Python's full `\w` is Unicode-wide). -/
def clMatch : RCls → Char → Bool
  | .anyc, c => c ≠ '\n'
  | .word, c => isAlphaNum c || c = '_'
  | .single c0, c => c = c0

/-- Regex metacharacters that the fragment does not accept as bare literals. -/
def specialRe (c : Char) : Bool :=
  c = '(' || c = ')' || c = '[' || c = ']' || c = Char.ofNat 123 ||
  c = Char.ofNat 125 || c = '?' || c = '+' || c = '|' || c = '^' ||
  c = '$' || c = '*' || c = '\\' || c = '.'

/-- Parse a pattern body into tokens plus an end-anchor flag. -/
def parseRegexToks : List Char → Option (List RTok × Bool)
  | [] => some ([], false)
  | ['$'] => some ([], true)
  | '\\' :: c :: '*' :: rest =>
    if isAlphaNum c then
      if c = 'w' then (parseRegexToks rest).map (fun p => (.star .word :: p.1, p.2))
      else none
    else (parseRegexToks rest).map (fun p => (.star (.single c) :: p.1, p.2))
  | '\\' :: c :: rest =>
    if isAlphaNum c then
      if c = 'w' then (parseRegexToks rest).map (fun p => (.one .word :: p.1, p.2))
      else none
    else (parseRegexToks rest).map (fun p => (.lit c :: p.1, p.2))
  | '.' :: '*' :: rest => (parseRegexToks rest).map (fun p => (.star .anyc :: p.1, p.2))
  | '.' :: rest => (parseRegexToks rest).map (fun p => (.one .anyc :: p.1, p.2))
  | c :: '*' :: rest =>
    if specialRe c then none
    else (parseRegexToks rest).map (fun p => (.star (.single c) :: p.1, p.2))
  | c :: rest =>
    if specialRe c then none
    else (parseRegexToks rest).map (fun p => (.lit c :: p.1, p.2))

/-- The suffixes of `cs` reachable by consuming zero or more `cl` characters
from the front (the candidate continuations after a starred class). -/
def starSuffixes (cl : RCls) : List Char → List (List Char)
  | [] => [[]]
  | c :: cs => (c :: cs) :: (if clMatch cl c then starSuffixes cl cs else [])

/-- Token-list matching against a character list.  Without the end anchor a
match may leave trailing characters — the `re.match` (prefix) semantics. -/
def matchToks (anchorEnd : Bool) : List RTok → List Char → Bool
  | [], cs => if anchorEnd then cs.isEmpty else true
  | .lit _ :: _, [] => false
  | .lit c :: ts, d :: ds => c = d && matchToks anchorEnd ts ds
  | .one _ :: _, [] => false
  | .one cl :: ts, d :: ds => clMatch cl d && matchToks anchorEnd ts ds
  | .star cl :: ts, cs => (starSuffixes cl cs).any (fun ys => matchToks anchorEnd ts ys)

/-- `re.match(pattern, key)` truthiness: anchored at the start of `key` only
(a leading `^` is equivalent there); `.error ()` outside the fragment. -/
def reMatchAt (pattern key : String) : Except Unit Bool :=
  let cs := if pattern.data.head? = some '^' then pattern.data.drop 1 else pattern.data
  match parseRegexToks cs with
  | some (ts, e) => .ok (matchToks e ts key.data)
  | none => .error ()

/-! ### `wildcard_to_regex` and the wildcard override engine (lines 158-191) -/

/-- `re.escape` (Python ≥ 3.7 escapes exactly this character set). -/
def reEscapeChar (c : Char) : List Char :=
  if c = '(' || c = ')' || c = '[' || c = ']' || c = Char.ofNat 123 ||
     c = Char.ofNat 125 || c = '?' || c = '*' || c = '+' || c = '-' ||
     c = '|' || c = '^' || c = '$' || c = '\\' || c = '.' || c = '&' ||
     c = '~' || c = '#' || c = ' ' || c = '\t' || c = '\n' || c = '\r' ||
     c = '\x0b' || c = '\x0c' then ['\\', c]
  else [c]

/-- `re.escape` over a whole string. -/
def reEscape (cs : List Char) : List Char :=
  List.foldr (fun c a => reEscapeChar c ++ a) [] cs

/-- `wildcard_to_regex(pattern)` (lines 158-164): escape, then rewrite the
`***`/`.**`/`**.`/`*` wildcard forms, then anchor. -/
def wildcard_to_regex (pattern : String) : String :=
  let e := reEscape pattern.data
  let e := pyReplace ['\\', '*', '\\', '*', '\\', '*'] ['.', '*'] e
  let e := pyReplace ['\\', '.', '\\', '*', '\\', '*'] ['\\', '.', '.', '*'] e
  let e := pyReplace ['\\', '*', '\\', '*', '\\', '.'] ['.', '*', '\\', '.'] e
  let e := pyReplace ['\\', '*'] ['\\', 'w', '*'] e
  String.mk ('^' :: e ++ ['$'])

/-- `match_wildcard(pattern, key)` (lines 166-167). -/
def match_wildcard (pattern key : String) : Except Unit Bool :=
  reMatchAt (wildcard_to_regex pattern) key

/-- `find_matching_keys(data, pattern)` (lines 169-171). -/
def find_matching_keys (kvs : List (String × Val)) (pattern : String) :
    Except Unit (List String) :=
  match kvs with
  | [] => .ok []
  | (k, _) :: rest => do
    let m ← match_wildcard pattern k
    let more ← find_matching_keys rest pattern
    .ok (if m then k :: more else more)

/-- Python `type(x)` as a tag (`bool` and `int` are distinct types). -/
def typeTag : Val → Nat
  | .null => 0
  | .bool _ => 1
  | .int _ => 2
  | .str _ => 3
  | .list _ => 4
  | .dict _ => 5

/-- Python truthiness of a value. -/
def truthyVal (v : Val) : Bool := !(isFalsy (some v))

/-- `x is None`. -/
def isNullVal : Val → Bool
  | .null => true
  | _ => false

/-- `"$" in override_value`: substring test on strings, member test on
lists/dict keys, `TypeError` on other values. -/
def valHasDollar : Val → Except Unit Bool
  | .str s => .ok (hasChar '$' s.data)
  | .list xs => .ok (xs.any (fun v => match v with | .str s => s = "$" | _ => false))
  | .dict kvs => .ok (kvs.any (fun kv => kv.1 = "$"))
  | _ => .error ()

/-- A resolved `Option Val` back to a Python value (`None` = `null`). -/
def valOfOpt : Option Val → Val
  | none => .null
  | some v => v

/-- Python dict assignment `d[k] = v`: update in place, else append. -/
def dictSet (kvs : List (String × Val)) (k : String) (v : Val) :
    List (String × Val) :=
  match kvs with
  | [] => [(k, v)]
  | (k', v') :: rest => if k' = k then (k', v) :: rest else (k', v') :: dictSet rest k v

/-- Python `d.update(other)` (shallow merge, insertion order preserved). -/
def dictUpdate (kvs upd : List (String × Val)) : List (String × Val) :=
  upd.foldl (fun acc kv => dictSet acc kv.1 kv.2) kvs

/-- The override-value preprocessing of `apply_overrides` (line 175-176):
a truthy value containing `$` is resolved; slicing a non-string raises. -/
def resolveOv (fuel : Nat) (toml : Val) (v : Val) : Except Unit Val :=
  if truthyVal v then do
    let d ← valHasDollar v
    if d then
      match v with
      | .str s => do
        let r ← resolve_variable fuel (String.mk (s.data.drop 1)) toml
        .ok (valOfOpt r)
      | _ => .error ()
    else .ok v
  else .ok v

/-- The per-key assignment of `apply_overrides` (lines 179-190): dict values
merge, list values are rejected (printed, skipped), same-type-or-null values
assign, falsy values null the key, anything else is skipped. -/
def applyOvKey (theme : List (String × Val)) (ov : Val) (key : String) :
    Except Unit (List (String × Val)) :=
  match ov with
  | .dict upd =>
    (match lookupStr key theme with
     | some (.dict inner) => .ok (dictSet theme key (.dict (dictUpdate inner upd)))
     | _ => .error ())
  | .list _ => .ok theme
  | _ =>
    match lookupStr key theme with
    | some cur =>
      if typeTag cur = typeTag ov || isNullVal cur then .ok (dictSet theme key ov)
      else if !truthyVal ov then .ok (dictSet theme key .null)
      else .ok theme
    | none => .error ()

/-- Fold of `applyOvKey` over the matched keys. -/
def applyOvKeys (theme : List (String × Val)) (ov : Val) :
    List String → Except Unit (List (String × Val))
  | [] => .ok theme
  | k :: ks => do
    let th' ← applyOvKey theme ov k
    applyOvKeys th' ov ks

/-- `apply_overrides(theme, toml_data, overrides)` (lines 173-191). -/
def apply_overrides (fuel : Nat) (theme : List (String × Val)) (toml : Val) :
    List (String × Val) → Except Unit (List (String × Val))
  | [] => .ok theme
  | (okey, oval) :: rest => do
    let ov ← resolveOv fuel toml oval
    let mks ← find_matching_keys theme okey
    let th' ← applyOvKeys theme ov mks
    apply_overrides fuel th' toml rest

/-! ### `apply_regex_overrides` (lines 277-286) -/

/-- The override-value preprocessing of `apply_regex_overrides` (lines
279-282): a truthy value containing `$` is resolved, a falsy value is
normalized to `None`. -/
def resolveRegexOv (fuel : Nat) (toml : Val) (v : Val) : Except Unit Val :=
  if truthyVal v then do
    let d ← valHasDollar v
    if d then
      match v with
      | .str s => do
        let r ← resolve_variable fuel (String.mk (s.data.drop 1)) toml
        .ok (valOfOpt r)
      | _ => .error ()
    else .ok v
  else .ok .null

/-- `for key in theme.keys(): if re.match(regex_pattern, key): theme[key] = v`
— iterated over a snapshot of the key list, as Python does. -/
def regexKeysGo (pat : String) (ov : Val) :
    List String → List (String × Val) → Except Unit (List (String × Val))
  | [], th => .ok th
  | k :: ks, th => do
    let m ← reMatchAt pat k
    regexKeysGo pat ov ks (if m then dictSet th k ov else th)

/-- `apply_regex_overrides(theme, toml_data, regex_overrides)` (lines 277-286). -/
def apply_regex_overrides (fuel : Nat) (theme : List (String × Val)) (toml : Val) :
    List (String × Val) → Except Unit (List (String × Val))
  | [] => .ok theme
  | (pat, oval) :: rest => do
    let ov ← resolveRegexOv fuel toml oval
    let th' ← regexKeysGo pat ov (theme.map Prod.fst) theme
    apply_regex_overrides fuel th' toml rest

/-! ### `parse_full_key` (lines 193-210) -/

/-- A parsed key segment: a string key or a numeric (list-index) segment. -/
inductive Seg where
  | str (s : String)
  | int (n : Nat)
deriving Repr, DecidableEq

/-- The `parse_full_key` loop; the second argument is a bracketed segment
being accumulated across dots; running past the end of the parts while
looking for `]` is Python's `IndexError`.  Fuel is `2 * parts + 1`. -/
def pfkGo : Nat → List (List Char) → Option (List Char) → Except Unit (List Seg)
  | 0, _, _ => .error ()
  | k + 1, parts, some acc =>
    if acc.getLast? = some ']' then do
      let more ← pfkGo k parts none
      .ok (.str (String.mk ((acc.drop 1).dropLast)) :: more)
    else
      (match parts with
       | [] => .error ()
       | p :: ps => pfkGo k ps (some (acc ++ '.' :: p)))
  | _ + 1, [], none => .ok []
  | k + 1, p :: ps, none =>
    if p.head? = some '[' then pfkGo k ps (some p)
    else if pyIsDigit p then do
      let more ← pfkGo k ps none
      .ok (.int (digitsToNat p) :: more)
    else do
      let more ← pfkGo k ps none
      .ok (.str (String.mk p) :: more)

/-- `parse_full_key(full_key)` (lines 193-210): split on `.`, re-join
`[...]`-bracketed segments, turn digit segments into list indices. -/
def parse_full_key (fullKey : String) : Except Unit (List Seg) :=
  let parts := pySplit '.' fullKey.data
  pfkGo (2 * parts.length + 1) parts none

/-! ### `apply_direct_overrides` (lines 213-274) -/

/-- Python truthiness of a key segment (`if part`). -/
def segTruthy : Seg → Bool
  | .str s => !s.data.isEmpty
  | .int n => n ≠ 0

/-- `part in current` for a dict: only string segments can match the
string-keyed dicts of this data model (`5 in {"a": 1}` is `False`). -/
def segInDict (p : Seg) (kvs : List (String × Val)) : Bool :=
  match p with
  | .str s => (lookupStr s kvs).isSome
  | .int _ => false

/-- Scalar equality of a segment against a list element (Python `==`, where
`True == 1` and `False == 0`). -/
def segValEq (p : Seg) (v : Val) : Bool :=
  match p, v with
  | .str s, .str t => s = t
  | .int n, .int m => (n : Int) = m
  | .int n, .bool b => (n = 1 && b) || (n = 0 && !b)
  | _, _ => false

/-- `part in current` for a list: value membership. -/
def segInList (p : Seg) (xs : List Val) : Bool := xs.any (segValEq p)

/-- The sequence-growing `while` loop of `apply_direct_overrides` (lines
242-252): append `[]` when the next segment is a digit string (an `int` next
segment hits `.isdigit()` on an `int` — `AttributeError`), `{}` when the
index equals the current length, otherwise the override value itself.  Fuel
is `n + 1`. -/
def growList (nxt : Option Seg) (ov : Val) (n : Nat) :
    Nat → List Val → Except Unit (List Val)
  | 0, cur => .ok cur
  | k + 1, cur =>
    if cur.length ≤ n then do
      let digitNext ←
        match nxt with
        | none => (.ok false : Except Unit Bool)
        | some (.str s) => if s.data.isEmpty then .ok false else .ok (pyIsDigit s.data)
        | some (.int m) => if m = 0 then .ok false else .error ()
      let newElem := if digitNext then Val.list []
                     else if n = cur.length then Val.dict []
                     else ov
      growList nxt ov n k (cur ++ [newElem])
    else .ok cur

/-- Store a child value back at a segment of a container (the pure image of
Python's in-place mutation through the `current` alias). -/
def setAt (cur : Val) (p : Seg) (child : Val) : Except Unit Val :=
  match cur, p with
  | .dict kvs, .str s => .ok (.dict (dictSet kvs s child))
  | .list xs, .int n => if n < xs.length then .ok (.list (xs.set n child)) else .error ()
  | _, _ => .error ()

/-- The post-loop assignment of `apply_direct_overrides` (lines 259-272):
normalize a `False` override to `None`, then assign at the stopping container
using Python's `part and part in current` test (key membership on dicts,
*value* membership on lists) with the list fallback branch. -/
def finishAssign (ov0 : Val) (p : Seg) (cur : Val) : Except Unit Val :=
  let ov := match ov0 with | .bool false => Val.null | v => v
  match cur with
  | .dict kvs =>
    if segTruthy p && segInDict p kvs then
      match p with
      | .str s => .ok (.dict (dictSet kvs s ov))
      | .int _ => .error ()
    else .ok cur
  | .list xs =>
    if segTruthy p && segInList p xs then
      match p with
      | .int n => if n < xs.length then .ok (.list (xs.set n ov)) else .error ()
      | .str _ => .error ()
    else
      (match p with
       | .int n =>
         if n > xs.length then .ok (.list (xs ++ [ov]))
         else if n = xs.length then .error ()
         else .ok (.list (xs.set n ov))
       | .str _ => .ok cur)
  | _ => .error ()

/-- The `for i, part in enumerate(parts)` walk of `apply_direct_overrides`
(lines 230-257): create missing containers (dict vs. list decided by whether
the next segment is a digit string), grow lists, descend through
container-valued children, `break` at a scalar child; the post-loop
assignment happens at the container where the walk stopped. -/
def walkGo (ov : Val) : List Seg → Val → Except Unit Val
  | [], cur => .ok cur
  | p :: rest, cur => do
    let nxt : Option Seg := rest.head?
    let cur ←
      match cur with
      | .dict kvs =>
        if !segInDict p kvs then
          match p with
          | .str s =>
            if rest.isEmpty then .ok (Val.dict (dictSet kvs s .null))
            else
              (match nxt with
               | some (.str ns) =>
                 if pyIsDigit ns.data then .ok (Val.dict (dictSet kvs s (.list [])))
                 else .ok (Val.dict (dictSet kvs s (.dict [])))
               | some (.int _) => .error ()
               | none => .error ())
          | .int _ => .error ()
        else .ok (Val.dict kvs)
      | .list xs =>
        (match p with
         | .int n =>
           if xs.length ≤ n then do
             let xs' ← growList nxt ov n (n + 1) xs
             .ok (Val.list xs')
           else .ok (Val.list xs)
         | .str _ => .error ())
      | _ => .error ()
    let nv ←
      match cur with
      | .dict kvs =>
        (match p with
         | .str s => (match lookupStr s kvs with | some v => .ok v | none => .error ())
         | .int _ => .error ())
      | .list xs =>
        (match p with
         | .int n => (match xs.get? n with | some v => .ok v | none => .error ())
         | .str _ => .error ())
      | _ => .error ()
    match nv with
    | .dict _ => do
      let child ← if rest.isEmpty then finishAssign ov p nv else walkGo ov rest nv
      setAt cur p child
    | .list _ => do
      let child ← if rest.isEmpty then finishAssign ov p nv else walkGo ov rest nv
      setAt cur p child
    | _ => finishAssign ov p cur

/-- `apply_direct_overrides(theme, toml_data, overrides)` (lines 213-274).
A dot-free key is assigned directly (with no `False`-to-`None`
normalization); a dotted key goes through `parse_full_key` and the walk. -/
def apply_direct_overrides (fuel : Nat) (theme : List (String × Val)) (toml : Val) :
    List (String × Val) → Except Unit (List (String × Val))
  | [] => .ok theme
  | (okey, oval) :: rest => do
    let ov ←
      match oval with
      | .str s =>
        if hasChar '$' s.data then do
          let r ← resolve_variable fuel (String.mk (s.data.drop 1)) toml
          (.ok (valOfOpt r) : Except Unit Val)
        else .ok oval
      | v => .ok v
    if !hasChar '.' okey.data then
      apply_direct_overrides fuel (dictSet theme okey ov) toml rest
    else do
      let parts ← parse_full_key okey
      if parts.isEmpty then apply_direct_overrides fuel theme toml rest
      else do
        let th' ← walkGo ov parts (.dict theme)
        match th' with
        | .dict kvs => apply_direct_overrides fuel kvs toml rest
        | _ => .error ()

/-! ### The deletion pass of `process_json_template` (lines 119-129) -/

/-- Substring test on character lists (Python `sub in s` for strings). -/
def listIsInfix (pat cs : List Char) : Bool :=
  cs.tails.any (fun t => pat.isPrefixOf t)

/-- `key in val` during the deletion walk: key membership on dicts, value
membership on lists, substring test on strings, `TypeError` otherwise. -/
def jmemDel (p : Seg) (cur : Val) : Except Unit Bool :=
  match cur with
  | .dict kvs => .ok (segInDict p kvs)
  | .list xs => .ok (segInList p xs)
  | .str s =>
    (match p with
     | .str ps => .ok (listIsInfix ps.data s.data)
     | .int _ => .error ())
  | _ => .error ()

/-- `val[key]` during the deletion descent (only reached after a positive
membership test); non-(dict-key / list-index) accesses raise. -/
def jgetDel (p : Seg) (cur : Val) : Except Unit Val :=
  match cur, p with
  | .dict kvs, .str s => (match lookupStr s kvs with | some v => .ok v | none => .error ())
  | .list xs, .int n => (match xs.get? n with | some v => .ok v | none => .error ())
  | _, _ => .error ()

/-- Remove a dict entry (Python `del d[k]`). -/
def dictRemove (kvs : List (String × Val)) (k : String) : List (String × Val) :=
  match kvs with
  | [] => []
  | (k', v) :: rest => if k' = k then rest else (k', v) :: dictRemove rest k

/-- `if keys[-1] in val: del val[keys[-1]]` (lines 128-129). -/
def delLast (p : Seg) (cur : Val) : Except Unit Val := do
  let m ← jmemDel p cur
  if m then
    match cur, p with
    | .dict kvs, .str s => .ok (.dict (dictRemove kvs s))
    | .list xs, .int n =>
      if n < xs.length then .ok (.list (xs.eraseIdx n)) else .error ()
    | _, _ => .error ()
  else .ok cur

/-- The deletion walk over `keys[:-1]` (lines 123-127).  A segment missing
from the current container is skipped by `continue` — the walk stays at the
same container and goes on with the *next* segment (the `TODO: FIX THIS`
comment in the source marks this). -/
def delGo (lastSeg : Seg) : List Seg → Val → Except Unit Val
  | [], cur => delLast lastSeg cur
  | k :: ks, cur => do
    let m ← jmemDel k cur
    if m then do
      let child ← jgetDel k cur
      let child' ← delGo lastSeg ks child
      setAt cur k child'
    else
      delGo lastSeg ks cur

/-- One entry of `toml_data['deletions']['keys']` applied to the theme. -/
def applyOneDeletion (theme : Val) (fullKey : String) : Except Unit Val := do
  let keys ← parse_full_key fullKey
  match keys.getLast? with
  | some lastSeg => delGo lastSeg keys.dropLast theme
  | none => .error ()

/-- The whole deletion pass: every listed key in order. -/
def applyDeletions (theme : Val) : List String → Except Unit Val
  | [] => .ok theme
  | k :: ks => do
    let th' ← applyOneDeletion theme k
    applyDeletions th' ks

/-! ### `get_delete_keys` (lines 338-355)

The Python function both *returns* the delete-key list and *mutates* its
`final_theme` argument (appending template list items past the end of the
theme's list); the embedding returns the pair (keys, updated theme). -/

/-- `string_key`/`full_key` construction (lines 341-342): bracket a dotted
key; an empty prefix keeps the plain key. -/
def mkFullKey (pfx key : String) : String :=
  let stringKey := if hasChar '.' key.data then String.mk ('[' :: key.data ++ [']']) else key
  if pfx.data.isEmpty then key else String.mk (pfx.data ++ '.' :: stringKey.data)

/-- The `for i, item in enumerate(template[key])` loop (lines 349-353):
append the template item when the index is past the end of the theme's list
(without recursing into it), recurse into dict items otherwise.  `recur` is
`get_delete_keys` at smaller fuel. -/
def gdkList (recur : Val → Val → String → Except Unit (List String × Val)) :
    List Val → List Val → Nat → String → Except Unit (List String × List Val)
  | [], cur, _, _ => .ok ([], cur)
  | item :: rest, cur, i, fk =>
    if cur.length ≤ i then gdkList recur rest (cur ++ [item]) (i + 1) fk
    else
      match item with
      | .dict _ => do
        let el ← (match cur.get? i with | some v => (.ok v : Except Unit Val) | none => .error ())
        let (dks, el') ← recur item el fk
        let (dks2, cur') ← gdkList recur rest (cur.set i el') (i + 1) fk
        .ok (dks ++ dks2, cur')
      | _ => gdkList recur rest cur (i + 1) fk

/-- The `for key in template.keys()` loop of `get_delete_keys` (lines
340-353).  A non-list theme value under a list template value is modelled as
an error (Python would only fail on an actual `.append`). -/
def gdkEntries (recur : Val → Val → String → Except Unit (List String × Val)) :
    List (String × Val) → Val → String → Except Unit (List String × Val)
  | [], th, _ => .ok ([], th)
  | (key, tval) :: rest, th, pfx => do
    let fullKey := mkFullKey pfx key
    let m ← jmemDel (.str key) th
    if !m then do
      let (d, th') ← gdkEntries recur rest th pfx
      .ok (fullKey :: d, th')
    else
      match tval with
      | .dict _ => do
        let tv ← jgetDel (.str key) th
        let (d1, tv') ← recur tval tv fullKey
        let th2 ← setAt th (.str key) tv'
        let (d2, th') ← gdkEntries recur rest th2 pfx
        .ok (d1 ++ d2, th')
      | .list ts => do
        let tv ← jgetDel (.str key) th
        (match tv with
         | .list vs => do
           let (d1, vs') ← gdkList recur ts vs 0 fullKey
           let th2 ← setAt th (.str key) (.list vs')
           let (d2, th') ← gdkEntries recur rest th2 pfx
           .ok (d1 ++ d2, th')
         | _ => .error ())
      | _ => gdkEntries recur rest th pfx

/-- One level of `get_delete_keys`: the template must be a dict (Python
iterates `template.keys()`). -/
def gdkBody (recur : Val → Val → String → Except Unit (List String × Val)) :
    Val → Val → String → Except Unit (List String × Val)
  | .dict entries, th, pfx => gdkEntries recur entries th pfx
  | _, _, _ => .error ()

/-- `get_delete_keys(template, final_theme, prefix)` (lines 338-355), with
fuel bounding the nesting depth. -/
def get_delete_keys : Nat → Val → Val → String → Except Unit (List String × Val) :=
  fun fuel =>
    Nat.rec (motive := fun _ => Val → Val → String → Except Unit (List String × Val))
      (fun _ _ _ => .error ())
      (fun _ ih t th pfx => gdkBody ih t th pfx)
      fuel

/-! ### Color helpers (lines 521-540) -/

/-- A hexadecimal digit (the regex class `[0-9a-fA-F]`). -/
def isHexDigit (c : Char) : Bool :=
  c.isDigit || ('a' ≤ c && c ≤ 'f') || ('A' ≤ c && c ≤ 'F')

/-- Exactly `k` leading characters exist and are hex digits (`{k}` in the
pattern, as a prefix match). -/
def hexPrefix (k : Nat) (cs : List Char) : Bool :=
  (cs.take k).length = k && (cs.take k).all isHexDigit

/-- `is_hex_color` on a string: `re.match` (prefix semantics) of
`(#([0-9a-fA-F]{8}|[0-9a-fA-F]{6}|[0-9a-fA-F]{3}))`. -/
def is_hex_color_str (s : String) : Bool :=
  match s.data with
  | '#' :: rest => hexPrefix 8 rest || hexPrefix 6 rest || hexPrefix 3 rest
  | _ => false

/-- `is_hex_color(color)` (lines 521-525): `False` on non-strings. -/
def is_hex_color : Val → Bool
  | .str s => is_hex_color_str s
  | _ => false

/-- `get_base_color(hex)` (lines 528-534): assert `#`-prefix and length 4, 7
or 9 (`.error ()` on failure), uppercase, expand 3-digit form, take 7. -/
def get_base_color (s : String) : Except Unit String :=
  match s.data with
  | '#' :: rest =>
    let n := ('#' :: rest).length
    if n = 4 || n = 7 || n = 9 then
      let up := ('#' :: rest).map Char.toUpper
      let up := if n = 4 then
                  (match up with
                   | ['#', a, b, c] => ['#', a, a, b, b, c, c]
                   | l => l)
                else up
      .ok (String.mk (up.take 7))
    else .error ()
  | _ => .error ()

/-- `get_alpha(hex)` (lines 536-540): assert `is_hex_color`, `None` unless
the length is 9, else the trailing two characters. -/
def get_alpha (s : String) : Except Unit (Option String) :=
  if is_hex_color_str s then
    if s.data.length = 9 then .ok (some (String.mk (s.data.drop 7))) else .ok none
  else .error ()

/-! ### `handle_colors` (lines 543-597) and `cleanup_variables` (600-640) -/

/-- `collections.Counter.update({k: n})`: add to an existing entry in place
(insertion order kept) or append a new one. -/
def counterUpdate (c : List (String × Nat)) (k : String) (n : Nat) :
    List (String × Nat) :=
  match c with
  | [] => [(k, n)]
  | (k', m) :: rest => if k' = k then (k', m + n) :: rest else (k', m) :: counterUpdate rest k n

/-- Counter lookup (0 for an absent key). -/
def countOf (c : List (String × Nat)) (k : String) : Nat :=
  match c with
  | [] => 0
  | (k', m) :: rest => if k' = k then m else countOf rest k

/-- The histogram scan of one variable (lines 551-554): every `(color,
count)` pair whose key is a hex color contributes its count to the
canonical base (`is_hex_color` is false on every non-string value). -/
def countsFromHist (c : List (String × Nat)) :
    List (Val × Nat) → Except Unit (List (String × Nat))
  | [] => .ok c
  | (.str s, n) :: rest =>
    if is_hex_color_str s then do
      let b ← get_base_color s
      countsFromHist (counterUpdate c b n) rest
    else countsFromHist c rest
  | (_, _) :: rest => countsFromHist c rest

/-- The `for _, value in variables.items()` loop (lines 550-554). -/
def countsFromVariables (c : List (String × Nat)) :
    List (String × List (Val × Nat)) → Except Unit (List (String × Nat))
  | [] => .ok c
  | (_, hist) :: rest => do
    let c' ← countsFromHist c hist
    countsFromVariables c' rest

/-- One `for _, value in overrides.items()` scan (lines 556-559, repeated
verbatim at lines 566-569): each truthy hex-color override adds 1
(`is_hex_color` is false on every non-string value). -/
def countsFromOverrides (c : List (String × Nat)) :
    List (String × Val) → Except Unit (List (String × Nat))
  | [] => .ok c
  | (_, .str s) :: rest =>
    if truthyVal (.str s) && is_hex_color_str s then do
      let b ← get_base_color s
      countsFromOverrides (counterUpdate c b 1) rest
    else countsFromOverrides c rest
  | (_, _) :: rest => countsFromOverrides c rest

/-- `max(value, key=value.get)` scan: the first key with the maximal count
(later equal counts do not displace the current maximum). -/
def argmaxGo (v : Val) (n : Nat) : List (Val × Nat) → Val
  | [] => v
  | (v', n') :: rest => if n' > n then argmaxGo v' n' rest else argmaxGo v n rest

/-- `max` over a histogram (`ValueError` on an empty one). -/
def argmaxFirst : List (Val × Nat) → Except Unit Val
  | [] => .error ()
  | (v, n) :: rest => .ok (argmaxGo v n rest)

/-- `sorted_variables = {var: max(value, key=value.get) ...}` (line 562). -/
def sortedVariablesOf :
    List (String × List (Val × Nat)) → Except Unit (List (String × Val))
  | [] => .ok []
  | (k, hist) :: rest => do
    let v ← argmaxFirst hist
    let more ← sortedVariablesOf rest
    .ok ((k, v) :: more)

/- Python `==` on values.  Scalar and list equality are as in Python; dict
equality is modelled order-sensitively and the `True == 1` numeric
identification is omitted (neither occurs in the compared positions). -/
mutual
def valBeq : Val → Val → Bool
  | .null, .null => true
  | .bool a, .bool b => a = b
  | .int a, .int b => a = b
  | .str a, .str b => a = b
  | .list xs, .list ys => valBeqL xs ys
  | .dict xs, .dict ys => valBeqD xs ys
  | _, _ => false
def valBeqL : List Val → List Val → Bool
  | [], [] => true
  | x :: xs, y :: ys => valBeq x y && valBeqL xs ys
  | _, _ => false
def valBeqD : List (String × Val) → List (String × Val) → Bool
  | [], [] => true
  | (k, x) :: xs, (k', y) :: ys => k = k' && valBeq x y && valBeqD xs ys
  | _, _ => false
end

/-- Python `repr` of a scalar as it appears inside `str(some_list)`; nested
containers are not modelled (no claim exercises them). -/
def pyReprScalar : Val → Except Unit (List Char)
  | .str s => .ok (Char.ofNat 39 :: s.data ++ [Char.ofNat 39])
  | .int n => .ok (intReprL n)
  | .bool true => .ok ("True").data
  | .bool false => .ok ("False").data
  | .null => .ok ("None").data
  | _ => .error ()

/-- `pyReprScalar` over the elements of a list. -/
def pyReprElems : List Val → Except Unit (List (List Char))
  | [] => .ok []
  | v :: rest => do
    let r ← pyReprScalar v
    let more ← pyReprElems rest
    .ok (r :: more)

/-- `listify(value)` (lines 24-25): `"^SUBLIST" + str(value)` with spaces and
single quotes removed. -/
def listify (xs : List Val) : Except Unit String := do
  let parts ← pyReprElems xs
  let s := '[' :: (List.intercalate (", ").data parts) ++ [']']
  .ok (String.mk (("^SUBLIST").data ++ s.filter (fun c => c ≠ ' ' && c ≠ Char.ofNat 39)))

/-- `color + f"..{alpha}"`-style alpha reattachment: `..` is interposed
exactly when the color is a `$`-reference. -/
def alphaAppendStr (color alpha : String) : String :=
  if color.data.head? = some '$' then String.mk (color.data ++ '.' :: '.' :: alpha.data)
  else String.mk (color.data ++ alpha.data)

/-- `get_base_color(v) if is_hex_color(v) else v` as a value. -/
def baseColorOrSelf (v : Val) : Except Unit Val :=
  if is_hex_color v then
    match v with
    | .str s => do
      let b ← get_base_color s
      (.ok (Val.str b) : Except Unit Val)
    | _ => .error ()
  else .ok v

/-- The body of the first `for key, value in map.items()` loop of
`cleanup_variables` (lines 606-624): listified values must equal the
variable's representative (`ValueError` otherwise); a value whose canonical
color disagrees with the representative's becomes an override (alpha
reattached); agreeing values are grouped by base color. -/
def cleanupEntry (vars : List (String × Val)) (varName : String)
    (ovr : List (String × Val)) (groups : List (Val × List (String × Val)))
    (key : String) (value0 : Val) :
    Except Unit (List (String × Val) × List (Val × List (String × Val))) := do
  let value ←
    match value0 with
    | .list xs => do
      let l ← listify xs
      (match lookupStr varName vars with
       | some tv =>
         if valBeq (.str l) tv then (.ok (Val.str l) : Except Unit Val) else .error ()
       | none => .error ())
    | v => .ok v
  let color ← baseColorOrSelf value
  let templColor ← baseColorOrSelf (valOfOpt (lookupStr varName vars))
  if !valBeq color templColor then do
    let alpha ←
      if is_hex_color color then
        match value with
        | .str s => get_alpha s
        | _ => .error ()
      else .ok none
    let newOv ←
      match alpha with
      | some a =>
        (match color with
         | .str cs => (.ok (Val.str (alphaAppendStr cs a)) : Except Unit Val)
         | _ => .error ())
      | none => .ok color
    .ok (dictSet ovr key newOv, groups)
  else
    .ok (ovr, groupAdd groups color (key, value0))
where
  /-- `base_color_groups.setdefault(color, []).append((key, value))`. -/
  groupAdd (gs : List (Val × List (String × Val))) (color : Val)
      (kv : String × Val) : List (Val × List (String × Val)) :=
    match gs with
    | [] => [(color, [kv])]
    | (c, l) :: rest =>
      if valBeq c color then (c, l ++ [kv]) :: rest
      else (c, l) :: groupAdd rest color kv

/-- Fold of `cleanupEntry` over one variable's `var_map` entries. -/
def cleanupFirstLoop (vars : List (String × Val)) (varName : String) :
    List (String × Val) → List (String × Val) → List (Val × List (String × Val)) →
    Except Unit (List (String × Val) × List (Val × List (String × Val)))
  | [], ovr, groups => .ok (ovr, groups)
  | (key, v) :: rest, ovr, groups => do
    let (ovr', groups') ← cleanupEntry vars varName ovr groups key v
    cleanupFirstLoop vars varName rest ovr' groups'

/-- The number of occurrences of `a` in `alphas` (Python `list.count`). -/
def alphaCount (alphas : List (Option String)) (a : Option String) : Nat :=
  alphas.countP (fun x => x = a)

/-- `max(alphas, key=lambda x: alphas.count(x))`: first maximum wins. -/
def mostCommonAlphaGo (alphas : List (Option String)) (cur : Option String) :
    List (Option String) → Option String
  | [] => cur
  | a :: rest =>
    if alphaCount alphas a > alphaCount alphas cur then mostCommonAlphaGo alphas a rest
    else mostCommonAlphaGo alphas cur rest

/-- `get_alpha(c[1]) for c in color_group if is_hex_color(c[1])`. -/
def alphasOf : List (String × Val) → Except Unit (List (Option String))
  | [] => .ok []
  | (_, v) :: rest =>
    if is_hex_color v then
      match v with
      | .str s => do
        let a ← get_alpha s
        let more ← alphasOf rest
        .ok (a :: more)
      | _ => .error ()
    else alphasOf rest

/-- The demotion loop of `cleanup_variables` (lines 633-637): group members
whose alpha is not the most common one become overrides and are popped from
the variable's `var_map` entry. -/
def demoteMinorityAlphas (mca : Option String) :
    List (String × Val) → List (String × Val) → List (String × Val) →
    Except Unit (List (String × Val) × List (String × Val))
  | [], ovr, vmapEntry => .ok (ovr, vmapEntry)
  | (key, value) :: rest, ovr, vmapEntry => do
    let alpha ←
      match value with
      | .str s => get_alpha s
      | _ => (.error () : Except Unit (Option String))
    if alpha ≠ mca then
      demoteMinorityAlphas mca rest (dictSet ovr key value) (dictRemove vmapEntry key)
    else
      demoteMinorityAlphas mca rest ovr vmapEntry

/-- The second, per-base-color loop of `cleanup_variables` (lines 626-637). -/
def cleanupSecondLoop :
    List (Val × List (String × Val)) → List (String × Val) → List (String × Val) →
    Except Unit (List (String × Val) × List (String × Val))
  | [], ovr, vmapEntry => .ok (ovr, vmapEntry)
  | (_, group) :: rest, ovr, vmapEntry => do
    if group.length > 1 then do
      let alphas ← alphasOf group
      if (alphas.dedup).length > 1 then do
        let mca :=
          match alphas with
          | [] => none
          | a :: tl => mostCommonAlphaGo alphas a tl
        let (ovr', vm') ← demoteMinorityAlphas mca group ovr vmapEntry
        cleanupSecondLoop rest ovr' vm'
      else cleanupSecondLoop rest ovr vmapEntry
    else cleanupSecondLoop rest ovr vmapEntry

/-- `cleanup_variables(var_map, variables, overrides)` (lines 600-640):
returns the extended overrides and the (possibly popped-from) `var_map`. -/
def cleanup_variables (vars : List (String × Val)) :
    List (String × List (String × Val)) → List (String × Val) →
    Except Unit (List (String × Val) × List (String × List (String × Val)))
  | [], ovr => .ok (ovr, [])
  | (vn, map) :: rest, ovr => do
    let (ovr1, groups) ← cleanupFirstLoop vars vn map ovr []
    let (ovr2, map') ← cleanupSecondLoop groups ovr1 map
    let (ovrF, restMap) ← cleanup_variables vars rest ovr2
    .ok (ovrF, (vn, map') :: restMap)

/-! ### Palette construction (lines 572-574) and the value rewrites -/

/-- Stable insertion for descending-by-count order: an element goes before
the first strictly smaller count, after earlier equal counts. -/
def insertByCountDesc (x : String × Nat) : List (String × Nat) → List (String × Nat)
  | [] => [x]
  | y :: ys => if x.2 ≥ y.2 then x :: y :: ys else y :: insertByCountDesc x ys

/-- The stable descending sort of Python
`sorted(items, key=lambda x: x[1], reverse=True)`. -/
def sortByCountDesc (l : List (String × Nat)) : List (String × Nat) :=
  l.foldr insertByCountDesc []

/-- `f"$colors.color{k}"`. -/
def mkColorName (k : Nat) : String := String.mk (("$colors.color").data ++ natRepr k)

/-- Palette lookup (`colors.get(base)`). -/
def paletteGet (colors : List (String × String)) (b : String) : Option String :=
  match colors with
  | [] => none
  | (c, nm) :: rest => if c = b then some nm else paletteGet rest b

/-- Lines 572-574: keep the counter entries whose count strictly exceeds the
threshold, sort them by descending count (stable), and name them
`$colors.color1`, `$colors.color2`, ... in that order. -/
def paletteOfCounter (c : List (String × Nat)) (t : Nat) : List (String × String) :=
  let sorted := sortByCountDesc (c.filter (fun p => p.2 > t))
  (sorted.map Prod.fst).enum.map (fun p => (p.2, mkColorName (p.1 + 1)))

/-- Line 577: replace each representative value that is a hex color by its
palette name when its base has one. -/
def rewriteVariables (colors : List (String × String)) :
    List (String × Val) → Except Unit (List (String × Val))
  | [] => .ok []
  | (k, v) :: rest => do
    let v' ←
      if is_hex_color v then
        match v with
        | .str s => do
          let b ← get_base_color s
          (.ok (match paletteGet colors b with
                | some nm => Val.str nm
                | none => v) : Except Unit Val)
        | _ => .error ()
      else .ok v
    let more ← rewriteVariables colors rest
    .ok ((k, v') :: more)

/-- Lines 585-593: rewrite override values to palette names, reattaching the
alpha suffix when doing so is unambiguous (`can_add_alpha`). -/
def rewriteOverrides (colors : List (String × String)) :
    List (String × Val) → Except Unit (List (String × Val))
  | [] => .ok []
  | (k, v) :: rest => do
    let v' ←
      if truthyVal v && is_hex_color v then
        match v with
        | .str s => do
          let b ← get_base_color s
          let color : String := (paletteGet colors b).getD s
          let alpha ← get_alpha s
          let canAdd :=
            (!color.data.isEmpty && color.data.head? = some '$' &&
              !listIsInfix ['.', '.'] color.data) ||
            (!color.data.isEmpty && !(color.data.head? = some '$') &&
              color.data.length < 9)
          (.ok (Val.str
            (match alpha with
             | some a => if !a.data.isEmpty && canAdd then alphaAppendStr color a else color
             | none => color)) : Except Unit Val)
        | _ => .error ()
      else .ok v
    let more ← rewriteOverrides colors rest
    .ok ((k, v') :: more)

/-- The counting phase of `handle_colors` in source order (lines 547-569):
variables scan, first overrides scan, representative selection, cleanup, and
the second overrides scan over the cleaned-up override map.  Returns the
final counter, the cleaned-up overrides, and the representatives. -/
def colorCounterFull (vars : List (String × List (Val × Nat)))
    (overrides : List (String × Val))
    (var_map : List (String × List (String × Val))) :
    Except Unit (List (String × Nat) × List (String × Val) × List (String × Val)) := do
  let c1 ← countsFromVariables [] vars
  let c2 ← countsFromOverrides c1 overrides
  let sortedVars ← sortedVariablesOf vars
  let (ovr2, _vm) ← cleanup_variables sortedVars var_map overrides
  let c3 ← countsFromOverrides c2 ovr2
  .ok (c3, ovr2, sortedVars)

/-- `handle_colors(variables, overrides, var_map, threshold)` (lines
543-597): returns the palette map, the rewritten representative variable
values, and the rewritten overrides. -/
def handle_colors (vars : List (String × List (Val × Nat)))
    (overrides : List (String × Val))
    (var_map : List (String × List (String × Val))) (threshold : Nat) :
    Except Unit (List (String × String) × List (String × Val) × List (String × Val)) := do
  let (c3, ovr2, sortedVars) ← colorCounterFull vars overrides var_map
  let colors := paletteOfCounter c3 threshold
  let sv ← rewriteVariables colors sortedVars
  let so ← rewriteOverrides colors ovr2
  .ok (colors, sv, so)

/-! ### The spec's frequency count (for comparison with the code's)

`specFrequency` follows the specification's words — the sum of the histogram
counts at a base color plus exactly one per literal-color override — and is
*not* a translation of the source; it exists to be compared with the counter
the code computes. -/

/-- The canonical base of a hex-color string value, if any. -/
def baseOfHex : Val → Option String
  | .str s => if is_hex_color_str s then (get_base_color s).toOption else none
  | _ => none

/-- One histogram's contribution to the spec's frequency at a base color. -/
def specHistContrib (base : String) : List (Val × Nat) → Nat
  | [] => 0
  | (v, n) :: rest =>
    (if baseOfHex v = some base then n else 0) + specHistContrib base rest

/-- Histogram part of the spec's frequency. -/
def specHistSum (vars : List (String × List (Val × Nat))) (base : String) : Nat :=
  match vars with
  | [] => 0
  | (_, hist) :: rest => specHistContrib base hist + specHistSum rest base

/-- Override part of the spec's frequency: one per truthy literal-color
override at the base. -/
def specOvrCount (overrides : List (String × Val)) (base : String) : Nat :=
  match overrides with
  | [] => 0
  | (_, v) :: rest =>
    (if truthyVal v ∧ baseOfHex v = some base then 1 else 0) + specOvrCount rest base

/-- The frequency the specification describes. -/
def specFrequency (vars : List (String × List (Val × Nat)))
    (overrides : List (String × Val)) (base : String) : Nat :=
  specHistSum vars base + specOvrCount overrides base

/-! ### Small monadic and dictionary lemmas -/

@[simp] theorem exbind_ok {α β : Type} (x : α) (f : α → Except Unit β) :
    (Except.ok x >>= f) = f x := rfl

@[simp] theorem exbind_err {α β ε : Type} (e : ε) (f : α → Except ε β) :
    ((Except.error e : Except ε α) >>= f) = .error e := rfl

theorem lookupStr_dictSet_self (kvs : List (String × Val)) (k : String) (v : Val) :
    lookupStr k (dictSet kvs k v) = some v := by
  induction kvs with
  | nil => simp [dictSet, lookupStr]
  | cons kv rest ih =>
    by_cases h : kv.1 = k
    · simp [dictSet, lookupStr, h]
    · simpa [dictSet, lookupStr, h] using ih

theorem dictSet_dictSet_self (kvs : List (String × Val)) (k : String) (v w : Val) :
    dictSet (dictSet kvs k v) k w = dictSet kvs k w := by
  induction kvs with
  | nil => simp [dictSet]
  | cons kv rest ih =>
    by_cases h : kv.1 = k
    · simp [dictSet, h]
    · simpa [dictSet, h] using ih

/-! ### Counter lemmas for the frequency analysis -/

theorem countOf_counterUpdate (c : List (String × Nat)) (k b : String) (n : Nat) :
    countOf (counterUpdate c k n) b = countOf c b + (if k = b then n else 0) := by
  induction c with
  | nil => simp [counterUpdate, countOf]
  | cons kv rest ih =>
    obtain ⟨k', m⟩ := kv
    by_cases h1 : k' = k
    · subst h1
      by_cases h2 : k' = b
      · subst h2; simp [counterUpdate, countOf]
      · simp [counterUpdate, countOf, h2]
    · by_cases h2 : k' = b
      · subst h2
        have hkb : ¬ k = k' := fun hh => h1 hh.symm
        simp [counterUpdate, countOf, h1, hkb]
      · simp [counterUpdate, countOf, h1, h2, ih]

theorem baseOfHex_of_ok {s : String} {bb : String}
    (hs : is_hex_color_str s = true) (hb : get_base_color s = .ok bb) :
    baseOfHex (.str s) = some bb := by
  simp [baseOfHex, hs, hb, Except.toOption]

theorem countOf_countsFromHist (hist : List (Val × Nat)) :
    ∀ (c c' : List (String × Nat)) (b : String),
    countsFromHist c hist = .ok c' →
    countOf c' b = countOf c b + specHistContrib b hist := by
  induction hist with
  | nil =>
    intro c c' b h
    simp [countsFromHist] at h
    simp [h.symm, specHistContrib]
  | cons p rest ih =>
    intro c c' b h
    obtain ⟨v, n⟩ := p
    cases v with
    | str s =>
      by_cases hs : is_hex_color_str s
      · rw [countsFromHist, if_pos hs] at h
        cases hb : get_base_color s with
        | error e => rw [hb] at h; simp at h
        | ok bb =>
          rw [hb] at h; simp at h
          rw [ih _ _ b h, countOf_counterUpdate, specHistContrib,
            baseOfHex_of_ok hs hb]
          by_cases hbb : bb = b
          · subst hbb; simp; omega
          · simp [hbb]
      · rw [countsFromHist, if_neg hs] at h
        rw [ih _ _ b h, specHistContrib]
        simp [baseOfHex, hs]
    | null =>
      simp only [countsFromHist] at h
      rw [ih _ _ b h, specHistContrib]; simp [baseOfHex]
    | bool b' =>
      simp only [countsFromHist] at h
      rw [ih _ _ b h, specHistContrib]; simp [baseOfHex]
    | int n' =>
      simp only [countsFromHist] at h
      rw [ih _ _ b h, specHistContrib]; simp [baseOfHex]
    | list xs =>
      simp only [countsFromHist] at h
      rw [ih _ _ b h, specHistContrib]; simp [baseOfHex]
    | dict kvs =>
      simp only [countsFromHist] at h
      rw [ih _ _ b h, specHistContrib]; simp [baseOfHex]

theorem countOf_countsFromVariables (vars : List (String × List (Val × Nat))) :
    ∀ (c c' : List (String × Nat)) (b : String),
    countsFromVariables c vars = .ok c' →
    countOf c' b = countOf c b + specHistSum vars b := by
  induction vars with
  | nil =>
    intro c c' b h
    simp [countsFromVariables] at h
    simp [h.symm, specHistSum]
  | cons kv rest ih =>
    intro c c' b h
    obtain ⟨k, hist⟩ := kv
    rw [countsFromVariables] at h
    cases h1 : countsFromHist c hist with
    | error e => rw [h1] at h; simp at h
    | ok c1 =>
      rw [h1] at h; simp at h
      rw [ih _ _ b h, countOf_countsFromHist hist c c1 b h1, specHistSum]
      omega

theorem countOf_countsFromOverrides (ovr : List (String × Val)) :
    ∀ (c c' : List (String × Nat)) (b : String),
    countsFromOverrides c ovr = .ok c' →
    countOf c' b = countOf c b + specOvrCount ovr b := by
  induction ovr with
  | nil =>
    intro c c' b h
    simp [countsFromOverrides] at h
    simp [h.symm, specOvrCount]
  | cons kv rest ih =>
    intro c c' b h
    obtain ⟨k, v⟩ := kv
    cases v with
    | str s =>
      by_cases hts : truthyVal (.str s) && is_hex_color_str s
      · have ht : truthyVal (.str s) = true := by
          cases hh : truthyVal (Val.str s) <;> simp [hh] at hts ⊢
        have hs : is_hex_color_str s = true := by
          cases hh : is_hex_color_str s <;> simp [hh] at hts ⊢
        rw [countsFromOverrides, if_pos hts] at h
        cases hb : get_base_color s with
        | error e => rw [hb] at h; simp at h
        | ok bb =>
          rw [hb] at h; simp at h
          rw [ih _ _ b h, countOf_counterUpdate, specOvrCount,
            baseOfHex_of_ok hs hb]
          by_cases hbb : bb = b
          · subst hbb; simp [ht]; omega
          · simp [hbb, ht]
      · rw [countsFromOverrides, if_neg hts] at h
        rw [ih _ _ b h, specOvrCount]
        by_cases ht : truthyVal (Val.str s)
        · have hs : is_hex_color_str s = false := by
            cases hh : is_hex_color_str s
            · rfl
            · exact absurd (by simp [ht, hh]) hts
          simp [baseOfHex, hs]
        · simp [ht]
    | null =>
      simp only [countsFromOverrides] at h
      rw [ih _ _ b h, specOvrCount]; simp [baseOfHex]
    | bool b' =>
      simp only [countsFromOverrides] at h
      rw [ih _ _ b h, specOvrCount]; simp [baseOfHex]
    | int n' =>
      simp only [countsFromOverrides] at h
      rw [ih _ _ b h, specOvrCount]; simp [baseOfHex]
    | list xs =>
      simp only [countsFromOverrides] at h
      rw [ih _ _ b h, specOvrCount]; simp [baseOfHex]
    | dict kvs =>
      simp only [countsFromOverrides] at h
      rw [ih _ _ b h, specOvrCount]; simp [baseOfHex]

/-! ### Lemmas for the regex override frame property -/

theorem reMatchAt_of_parse {pat : String} {ts : List RTok} {e : Bool}
    (hp : parseRegexToks (if pat.data.head? = some '^' then pat.data.drop 1 else pat.data)
      = some (ts, e)) (k : String) :
    reMatchAt pat k = .ok (matchToks e ts k.data) := by
  simp only [List.drop_one] at hp
  simp [reMatchAt, hp]

theorem regexKeysGo_eq_foldl {pat : String} {ts : List RTok} {e : Bool}
    (hp : parseRegexToks (if pat.data.head? = some '^' then pat.data.drop 1 else pat.data)
      = some (ts, e)) (ov : Val) :
    ∀ (ks : List String) (th : List (String × Val)),
    regexKeysGo pat ov ks th
      = .ok (ks.foldl (fun t k => if matchToks e ts k.data then dictSet t k ov else t) th) := by
  intro ks
  induction ks with
  | nil => intro th; rfl
  | cons k rest ih =>
    intro th
    rw [regexKeysGo, reMatchAt_of_parse hp k, exbind_ok, ih]
    rfl

theorem foldl_set_cons (cond : String → Bool) (ov : Val) :
    ∀ (ks : List String) (k0 : String) (w : Val) (t : List (String × Val)),
    k0 ∉ ks →
    ks.foldl (fun t k => if cond k then dictSet t k ov else t) ((k0, w) :: t)
      = (k0, w) :: ks.foldl (fun t k => if cond k then dictSet t k ov else t) t := by
  intro ks
  induction ks with
  | nil => intro k0 w t _; rfl
  | cons k rest ih =>
    intro k0 w t hmem
    have hne' : ¬ (k0 = k) := fun hh => hmem (hh ▸ List.mem_cons_self k rest)
    have hrest : k0 ∉ rest := fun hh => hmem (List.mem_cons_of_mem _ hh)
    simp only [List.foldl_cons]
    by_cases hc : cond k
    · have hd : dictSet ((k0, w) :: t) k ov = (k0, w) :: dictSet t k ov := by
        simp [dictSet, hne']
      rw [if_pos hc, if_pos hc, hd]
      exact ih _ _ _ hrest
    · rw [if_neg hc, if_neg hc]
      exact ih _ _ _ hrest

theorem foldl_set_eq_map (cond : String → Bool) (ov : Val) :
    ∀ (th : List (String × Val)), (th.map Prod.fst).Nodup →
    (th.map Prod.fst).foldl (fun t k => if cond k then dictSet t k ov else t) th
      = th.map (fun kv => if cond kv.1 then (kv.1, ov) else kv) := by
  intro th
  induction th with
  | nil => intro _; rfl
  | cons kv rest ih =>
    intro hnd
    obtain ⟨k0, v0⟩ := kv
    simp only [List.map_cons, List.nodup_cons] at hnd
    obtain ⟨hnm, hnd'⟩ := hnd
    simp only [List.map_cons, List.foldl_cons]
    have hstep : (if cond k0 then dictSet ((k0, v0) :: rest) k0 ov else ((k0, v0) :: rest))
        = (k0, if cond k0 then ov else v0) :: rest := by
      by_cases hc : cond k0 <;> simp [hc, dictSet]
    rw [hstep, foldl_set_cons cond ov _ _ _ _ hnm, ih hnd']
    by_cases hc : cond k0 <;> simp [hc]

/-! ### Lemmas for the reverse-extraction list mutation -/

theorem gdkList_append_all (recur : Val → Val → String → Except Unit (List String × Val))
    (fk : String) :
    ∀ (ts cur : List Val) (d : List String) (c' : List Val),
    gdkList recur ts cur cur.length fk = .ok (d, c') → c' = cur ++ ts := by
  intro ts
  induction ts with
  | nil =>
    intro cur d c' h
    simp [gdkList] at h
    simpa using h.2.symm
  | cons item rest ih =>
    intro cur d c' h
    have hunf : gdkList recur (item :: rest) cur cur.length fk
        = gdkList recur rest (cur ++ [item]) (cur.length + 1) fk := by
      cases item <;> rw [gdkList, if_pos (Nat.le_refl _)] <;> simp
    rw [hunf] at h
    have hlen : cur.length + 1 = (cur ++ [item]).length := by simp
    rw [hlen] at h
    have := ih (cur ++ [item]) d c' h
    simpa [List.append_assoc] using this

theorem gdkList_surplus (recur : Val → Val → String → Except Unit (List String × Val))
    (fk : String) :
    ∀ (ts cur : List Val) (i : Nat) (d : List String) (c' : List Val),
    i ≤ cur.length →
    gdkList recur ts cur i fk = .ok (d, c') →
    c'.length = max cur.length (i + ts.length) ∧
    c'.drop cur.length = ts.drop (cur.length - i) := by
  intro ts
  induction ts with
  | nil =>
    intro cur i d c' hi h
    simp [gdkList] at h
    obtain ⟨_, hc⟩ := h
    subst hc
    refine ⟨?_, by simp⟩
    simp only [List.length_nil, Nat.add_zero]
    omega
  | cons item rest ih =>
    intro cur i d c' hi h
    by_cases hcase : i = cur.length
    · subst hcase
      have := gdkList_append_all recur fk (item :: rest) cur d c' h
      subst this
      refine ⟨?_, by simp⟩
      simp only [List.length_append, List.length_cons]
      omega
    · have hlt : i < cur.length := Nat.lt_of_le_of_ne hi hcase
      have hnotle : ¬ (cur.length ≤ i) := Nat.not_le_of_lt hlt
      have hdropcons : (item :: rest).drop (cur.length - i)
          = rest.drop (cur.length - (i + 1)) := by
        obtain ⟨j, hj⟩ : ∃ j, cur.length - i = j + 1 := ⟨cur.length - i - 1, by omega⟩
        rw [hj, List.drop_succ_cons]
        congr 1
        omega
      have hscalar : gdkList recur rest cur (i + 1) fk = .ok (d, c') →
          c'.length = max cur.length (i + (item :: rest).length) ∧
          c'.drop cur.length = (item :: rest).drop (cur.length - i) := by
        intro hh
        obtain ⟨h1, h2⟩ := ih cur (i + 1) d c' (by omega) hh
        refine ⟨?_, by rw [h2, hdropcons]⟩
        rw [h1]
        simp only [List.length_cons]
        omega
      cases item with
      | dict entries =>
        rw [gdkList, if_neg hnotle] at h
        cases hget : cur.get? i with
        | none => rw [hget] at h; simp at h
        | some el =>
          rw [hget] at h
          dsimp only at h
          simp only [exbind_ok] at h
          cases hrec : recur (Val.dict entries) el fk with
          | error e => rw [hrec] at h; simp at h
          | ok p =>
            rw [hrec] at h
            obtain ⟨dks, el'⟩ := p
            simp only [exbind_ok] at h
            cases hrest : gdkList recur rest (cur.set i el') (i + 1) fk with
            | error e => rw [hrest] at h; simp at h
            | ok q =>
              rw [hrest] at h
              obtain ⟨dks2, cur2⟩ := q
              simp only [exbind_ok] at h
              simp at h
              obtain ⟨_, hc⟩ := h
              subst hc
              have hle : i + 1 ≤ (cur.set i el').length := by
                simp only [List.length_set]; omega
              obtain ⟨h1, h2⟩ := ih (cur.set i el') (i + 1) dks2 cur2 hle hrest
              simp only [List.length_set] at h1 h2
              refine ⟨?_, ?_⟩
              · rw [h1]; simp only [List.length_cons]; omega
              · rw [h2, hdropcons]
      | null =>
        rw [gdkList, if_neg hnotle] at h
        · exact hscalar h
        · simp
      | bool b =>
        rw [gdkList, if_neg hnotle] at h
        · exact hscalar h
        · simp
      | int n =>
        rw [gdkList, if_neg hnotle] at h
        · exact hscalar h
        · simp
      | str s =>
        rw [gdkList, if_neg hnotle] at h
        · exact hscalar h
        · simp
      | list xs =>
        rw [gdkList, if_neg hnotle] at h
        · exact hscalar h
        · simp

/-! ### Decimal-name injectivity, sorting, and palette lemmas -/

/-- Reference form of the decimal representation (recursion on `n / 10`),
used only in proofs. -/
def natReprAux (n : Nat) : List Char :=
  if n < 10 then [digitChar10 n]
  else natReprAux (n / 10) ++ [digitChar10 (n % 10)]
termination_by n
decreasing_by exact Nat.div_lt_self (by omega) (by omega)

theorem natReprGo_eq_aux : ∀ (fuel n : Nat) (acc : List Char), n < fuel →
    natReprGo fuel n acc = natReprAux n ++ acc := by
  intro fuel
  induction fuel with
  | zero => intro n acc h; omega
  | succ k ih =>
    intro n acc h
    rw [natReprGo]
    by_cases h10 : n < 10
    · rw [if_pos h10, natReprAux, if_pos h10]
      rfl
    · rw [if_neg h10, ih (n / 10) _ (by omega)]
      conv_rhs => rw [natReprAux, if_neg h10]
      simp

theorem natRepr_eq_aux (n : Nat) : natRepr n = natReprAux n := by
  rw [natRepr, natReprGo_eq_aux (n + 1) n [] (by omega)]
  simp

/-- Decimal decoding of a digit list. -/
def decDigits (cs : List Char) : Nat :=
  cs.foldl (fun a c => 10 * a + (c.toNat - 48)) 0

theorem digitChar10_val : ∀ d, d < 10 → (digitChar10 d).toNat - 48 = d := by decide

theorem foldl_dec_append (xs : List Char) (c : Char) (a : Nat) :
    (xs ++ [c]).foldl (fun a c => 10 * a + (c.toNat - 48)) a
      = 10 * (xs.foldl (fun a c => 10 * a + (c.toNat - 48)) a) + (c.toNat - 48) := by
  rw [List.foldl_append]
  rfl

theorem decDigits_natReprAux : ∀ n, decDigits (natReprAux n) = n := by
  intro n
  induction n using Nat.strong_induction_on with
  | _ n ih =>
    rw [natReprAux]
    by_cases h : n < 10
    · rw [if_pos h]
      show 10 * 0 + ((digitChar10 n).toNat - 48) = n
      rw [digitChar10_val n h]
      omega
    · rw [if_neg h]
      have hdiv : n / 10 < n := Nat.div_lt_self (by omega) (by omega)
      have := ih (n / 10) hdiv
      unfold decDigits at this ⊢
      rw [foldl_dec_append, this, digitChar10_val (n % 10) (Nat.mod_lt n (by omega))]
      omega

theorem natRepr_injective {m n : Nat} (h : natRepr m = natRepr n) : m = n := by
  rw [natRepr_eq_aux, natRepr_eq_aux] at h
  have := congrArg decDigits h
  rwa [decDigits_natReprAux, decDigits_natReprAux] at this

theorem mkColorName_injective {m n : Nat} (h : mkColorName m = mkColorName n) : m = n := by
  unfold mkColorName at h
  have hdata : ("$colors.color").data ++ natRepr m = ("$colors.color").data ++ natRepr n := by
    have := congrArg String.data h
    simpa using this
  exact natRepr_injective (List.append_cancel_left hdata)

theorem insertByCountDesc_perm (x : String × Nat) (l : List (String × Nat)) :
    (insertByCountDesc x l).Perm (x :: l) := by
  induction l with
  | nil => simp [insertByCountDesc]
  | cons y ys ih =>
    rw [insertByCountDesc]
    by_cases hc : x.2 ≥ y.2
    · rw [if_pos hc]
    · rw [if_neg hc]
      exact (List.Perm.cons y ih).trans (List.Perm.swap x y ys)

theorem sortByCountDesc_perm (l : List (String × Nat)) :
    (sortByCountDesc l).Perm l := by
  induction l with
  | nil => simp [sortByCountDesc]
  | cons x xs ih =>
    rw [sortByCountDesc, List.foldr_cons]
    exact (insertByCountDesc_perm x _).trans (List.Perm.cons x ih)

theorem mem_sortByCountDesc {p : String × Nat} {l : List (String × Nat)} :
    p ∈ sortByCountDesc l ↔ p ∈ l :=
  (sortByCountDesc_perm l).mem_iff

theorem pairwise_insertByCountDesc (x : String × Nat) (l : List (String × Nat))
    (h : List.Pairwise (fun p q => p.2 ≥ q.2) l) :
    List.Pairwise (fun p q => p.2 ≥ q.2) (insertByCountDesc x l) := by
  induction l with
  | nil => simp [insertByCountDesc]
  | cons y ys ih =>
    rw [insertByCountDesc]
    rw [List.pairwise_cons] at h
    obtain ⟨hy, hys⟩ := h
    by_cases hc : x.2 ≥ y.2
    · rw [if_pos hc]
      refine List.Pairwise.cons ?_ (List.Pairwise.cons hy hys)
      intro z hz
      rcases List.mem_cons.mp hz with hz | hz
      · subst hz; exact hc
      · exact le_trans (hy z hz) hc
    · rw [if_neg hc]
      refine List.Pairwise.cons ?_ (ih hys)
      intro z hz
      rcases List.mem_cons.mp ((insertByCountDesc_perm x ys).mem_iff.mp hz) with hz | hz
      · subst hz; omega
      · exact hy z hz

theorem pairwise_sortByCountDesc (l : List (String × Nat)) :
    List.Pairwise (fun p q => p.2 ≥ q.2) (sortByCountDesc l) := by
  induction l with
  | nil => simp [sortByCountDesc]
  | cons x xs ih =>
    rw [sortByCountDesc, List.foldr_cons]
    exact pairwise_insertByCountDesc x _ ih

theorem filter_insertByCountDesc (x : String × Nat) (l : List (String × Nat)) (kk : Nat) :
    (insertByCountDesc x l).filter (fun p => p.2 == kk)
      = (x :: l).filter (fun p => p.2 == kk) := by
  induction l with
  | nil => simp [insertByCountDesc]
  | cons y ys ih =>
    rw [insertByCountDesc]
    by_cases hc : x.2 ≥ y.2
    · rw [if_pos hc]
    · rw [if_neg hc]
      have hlt : x.2 < y.2 := by omega
      by_cases hx : x.2 = kk
      · have hy : ¬ (y.2 = kk) := by omega
        simp only [List.filter_cons]
        simp [hx, hy, ih]
      · by_cases hyk : y.2 = kk
        · simp only [List.filter_cons]
          simp [hx, hyk, ih]
        · simp only [List.filter_cons]
          simp [hx, hyk, ih]

theorem filter_sortByCountDesc (l : List (String × Nat)) (kk : Nat) :
    (sortByCountDesc l).filter (fun p => p.2 == kk) = l.filter (fun p => p.2 == kk) := by
  induction l with
  | nil => simp [sortByCountDesc]
  | cons x xs ih =>
    rw [sortByCountDesc] at ih
    rw [sortByCountDesc, List.foldr_cons, filter_insertByCountDesc]
    simp only [List.filter_cons]
    by_cases hx : x.2 == kk <;> simp [hx, ih]

theorem keys_counterUpdate_mem (c : List (String × Nat)) (k : String) (n : Nat) (x : String) :
    x ∈ (counterUpdate c k n).map Prod.fst ↔ x = k ∨ x ∈ c.map Prod.fst := by
  induction c with
  | nil => simp [counterUpdate]
  | cons kv rest ih =>
    obtain ⟨k1, m1⟩ := kv
    by_cases h : k1 = k
    · subst h
      simp [counterUpdate]
    · simp [counterUpdate, h, ih]
      tauto

theorem nodup_keys_counterUpdate (c : List (String × Nat)) (k : String) (n : Nat)
    (h : (c.map Prod.fst).Nodup) : ((counterUpdate c k n).map Prod.fst).Nodup := by
  induction c with
  | nil => simp [counterUpdate]
  | cons kv rest ih =>
    obtain ⟨k1, m1⟩ := kv
    simp only [List.map_cons, List.nodup_cons] at h
    obtain ⟨hnm, hnd⟩ := h
    by_cases hk : k1 = k
    · subst hk
      rw [counterUpdate, if_pos rfl]
      simp only [List.map_cons, List.nodup_cons]
      exact ⟨hnm, hnd⟩
    · rw [counterUpdate, if_neg hk]
      simp only [List.map_cons, List.nodup_cons]
      refine ⟨?_, ih hnd⟩
      intro hmem
      rcases (keys_counterUpdate_mem rest k n k1).mp hmem with hh | hh
      · exact hk hh
      · exact hnm hh

theorem countOf_eq_of_mem (c : List (String × Nat)) (x : String) (n : Nat)
    (hnd : (c.map Prod.fst).Nodup) (hm : (x, n) ∈ c) : countOf c x = n := by
  induction c with
  | nil => simp at hm
  | cons kv rest ih =>
    simp only [List.map_cons, List.nodup_cons] at hnd
    obtain ⟨hnm, hnd'⟩ := hnd
    rcases List.mem_cons.mp hm with hh | hh
    · rw [← hh]
      simp [countOf]
    · have hx : x ∈ rest.map Prod.fst := List.mem_map.mpr ⟨(x, n), hh, rfl⟩
      have hne : kv.1 ≠ x := fun hk => hnm (hk ▸ hx)
      obtain ⟨k1, m1⟩ := kv
      simp only [countOf, if_neg hne]
      exact ih hnd' hh

theorem mem_of_countOf_ne (c : List (String × Nat)) (x : String)
    (h : countOf c x ≠ 0) : (x, countOf c x) ∈ c := by
  induction c with
  | nil => simp [countOf] at h
  | cons kv rest ih =>
    obtain ⟨k1, m1⟩ := kv
    by_cases hk : k1 = x
    · subst hk
      simp [countOf]
    · simp only [countOf, if_neg hk] at h ⊢
      exact List.mem_cons_of_mem _ (ih h)

theorem nodup_countsFromHist (hist : List (Val × Nat)) :
    ∀ c c', countsFromHist c hist = .ok c' →
    (c.map Prod.fst).Nodup → (c'.map Prod.fst).Nodup := by
  induction hist with
  | nil =>
    intro c c' h hn
    simp [countsFromHist] at h
    rwa [← h]
  | cons p rest ih =>
    intro c c' h hn
    obtain ⟨v, n⟩ := p
    cases v with
    | str s =>
      by_cases hs : is_hex_color_str s
      · rw [countsFromHist, if_pos hs] at h
        cases hb : get_base_color s with
        | error e => rw [hb] at h; simp at h
        | ok bb =>
          rw [hb] at h
          simp only [exbind_ok] at h
          exact ih _ _ h (nodup_keys_counterUpdate c bb n hn)
      · rw [countsFromHist, if_neg hs] at h
        exact ih _ _ h hn
    | null => simp only [countsFromHist] at h; exact ih _ _ h hn
    | bool b => simp only [countsFromHist] at h; exact ih _ _ h hn
    | int m => simp only [countsFromHist] at h; exact ih _ _ h hn
    | list xs => simp only [countsFromHist] at h; exact ih _ _ h hn
    | dict kvs => simp only [countsFromHist] at h; exact ih _ _ h hn

theorem nodup_countsFromVariables (vars : List (String × List (Val × Nat))) :
    ∀ c c', countsFromVariables c vars = .ok c' →
    (c.map Prod.fst).Nodup → (c'.map Prod.fst).Nodup := by
  induction vars with
  | nil =>
    intro c c' h hn
    simp [countsFromVariables] at h
    rwa [← h]
  | cons kv rest ih =>
    intro c c' h hn
    obtain ⟨k, hist⟩ := kv
    rw [countsFromVariables] at h
    cases h1 : countsFromHist c hist with
    | error e => rw [h1] at h; simp at h
    | ok c1 =>
      rw [h1] at h
      simp only [exbind_ok] at h
      exact ih _ _ h (nodup_countsFromHist hist c c1 h1 hn)

theorem nodup_countsFromOverrides (ovr : List (String × Val)) :
    ∀ c c', countsFromOverrides c ovr = .ok c' →
    (c.map Prod.fst).Nodup → (c'.map Prod.fst).Nodup := by
  induction ovr with
  | nil =>
    intro c c' h hn
    simp [countsFromOverrides] at h
    rwa [← h]
  | cons kv rest ih =>
    intro c c' h hn
    obtain ⟨k, v⟩ := kv
    cases v with
    | str s =>
      by_cases hts : truthyVal (.str s) && is_hex_color_str s
      · rw [countsFromOverrides, if_pos hts] at h
        cases hb : get_base_color s with
        | error e => rw [hb] at h; simp at h
        | ok bb =>
          rw [hb] at h
          simp only [exbind_ok] at h
          exact ih _ _ h (nodup_keys_counterUpdate c bb 1 hn)
      · rw [countsFromOverrides, if_neg hts] at h
        exact ih _ _ h hn
    | null => simp only [countsFromOverrides] at h; exact ih _ _ h hn
    | bool b => simp only [countsFromOverrides] at h; exact ih _ _ h hn
    | int m => simp only [countsFromOverrides] at h; exact ih _ _ h hn
    | list xs => simp only [countsFromOverrides] at h; exact ih _ _ h hn
    | dict kvs => simp only [countsFromOverrides] at h; exact ih _ _ h hn

theorem nodup_colorCounterFull (vars : List (String × List (Val × Nat)))
    (ovr : List (String × Val)) (vmap : List (String × List (String × Val)))
    (c3 : List (String × Nat)) (ovr2 sv : List (String × Val))
    (h : colorCounterFull vars ovr vmap = .ok (c3, ovr2, sv)) :
    (c3.map Prod.fst).Nodup := by
  unfold colorCounterFull at h
  cases h1 : countsFromVariables [] vars with
  | error e => rw [h1] at h; simp at h
  | ok c1 =>
    rw [h1] at h; simp only [exbind_ok] at h
    cases h2 : countsFromOverrides c1 ovr with
    | error e => rw [h2] at h; simp at h
    | ok c2 =>
      rw [h2] at h; simp only [exbind_ok] at h
      cases h3 : sortedVariablesOf vars with
      | error e => rw [h3] at h; simp at h
      | ok sv0 =>
        rw [h3] at h; simp only [exbind_ok] at h
        cases h4 : cleanup_variables sv0 vmap ovr with
        | error e => rw [h4] at h; simp at h
        | ok q =>
          rw [h4] at h
          obtain ⟨ovrX, vmX⟩ := q
          simp only [exbind_ok] at h
          cases h5 : countsFromOverrides c2 ovrX with
          | error e => rw [h5] at h; simp at h
          | ok c3' =>
            rw [h5] at h
            simp only [exbind_ok] at h
            simp at h
            obtain ⟨hc, -, -⟩ := h
            subst hc
            have hn1 := nodup_countsFromVariables vars [] c1 h1 (by simp)
            have hn2 := nodup_countsFromOverrides ovr c1 c2 h2 hn1
            exact nodup_countsFromOverrides ovrX c2 c3' h5 hn2

theorem palette_fst (c : List (String × Nat)) (t : Nat) :
    (paletteOfCounter c t).map Prod.fst
      = (sortByCountDesc (c.filter (fun p => p.2 > t))).map Prod.fst := by
  unfold paletteOfCounter
  rw [List.map_map]
  have hcomp : (Prod.fst ∘ fun p : Nat × String => (p.2, mkColorName (p.1 + 1)))
      = Prod.snd := rfl
  rw [hcomp, List.enum_map_snd]

theorem palette_snd (c : List (String × Nat)) (t : Nat) :
    (paletteOfCounter c t).map Prod.snd
      = (List.range (paletteOfCounter c t).length).map (fun i => mkColorName (i + 1)) := by
  unfold paletteOfCounter
  rw [List.map_map]
  have hcomp : (Prod.snd ∘ fun p : Nat × String => (p.2, mkColorName (p.1 + 1)))
      = (fun i => mkColorName (i + 1)) ∘ Prod.fst := rfl
  rw [hcomp, ← List.map_map, List.enum_map_fst]
  simp

theorem palette_names_nodup (c : List (String × Nat)) (t : Nat) :
    ((paletteOfCounter c t).map Prod.snd).Nodup := by
  rw [palette_snd]
  refine List.Nodup.map ?_ (List.nodup_range _)
  intro a b hab
  have := mkColorName_injective hab
  omega

theorem palette_mem_iff (c : List (String × Nat)) (t : Nat)
    (hnd : (c.map Prod.fst).Nodup) (col : String) :
    (∃ nm, (col, nm) ∈ paletteOfCounter c t) ↔ countOf c col > t := by
  constructor
  · rintro ⟨nm, hmem⟩
    have hfst : col ∈ (paletteOfCounter c t).map Prod.fst :=
      List.mem_map.mpr ⟨(col, nm), hmem, rfl⟩
    rw [palette_fst] at hfst
    obtain ⟨⟨col', n⟩, hmem', hcol⟩ := List.mem_map.mp hfst
    simp at hcol
    subst hcol
    rw [mem_sortByCountDesc] at hmem'
    obtain ⟨hin, hdec⟩ := List.mem_filter.mp hmem'
    rw [countOf_eq_of_mem c col' n hnd hin]
    simpa using hdec
  · intro hgt
    have hne : countOf c col ≠ 0 := by omega
    have hmem := mem_of_countOf_ne c col hne
    have hf : (col, countOf c col) ∈ c.filter (fun p => p.2 > t) :=
      List.mem_filter.mpr ⟨hmem, by simpa using hgt⟩
    rw [← mem_sortByCountDesc] at hf
    have hfst : col ∈ (sortByCountDesc (c.filter (fun p => p.2 > t))).map Prod.fst :=
      List.mem_map.mpr ⟨(col, countOf c col), hf, rfl⟩
    rw [← palette_fst] at hfst
    obtain ⟨⟨c2, nm⟩, hm2, hc2⟩ := List.mem_map.mp hfst
    simp at hc2
    subst hc2
    exact ⟨nm, hm2⟩

theorem palette_desc (c : List (String × Nat)) (t : Nat)
    (hnd : (c.map Prod.fst).Nodup) :
    List.Pairwise (fun a b => countOf c a ≥ countOf c b)
      ((paletteOfCounter c t).map Prod.fst) := by
  rw [palette_fst, List.pairwise_map]
  refine (pairwise_sortByCountDesc (c.filter (fun p => p.2 > t))).imp_of_mem ?_
  intro p q hp hq hge
  rw [mem_sortByCountDesc] at hp hq
  obtain ⟨hpin, -⟩ := List.mem_filter.mp hp
  obtain ⟨hqin, -⟩ := List.mem_filter.mp hq
  rw [countOf_eq_of_mem c p.1 p.2 hnd hpin, countOf_eq_of_mem c q.1 q.2 hnd hqin]
  exact hge

theorem palette_stability (c : List (String × Nat)) (t : Nat)
    (hnd : (c.map Prod.fst).Nodup) (kk : Nat) (hk : kk > t) :
    ((paletteOfCounter c t).map Prod.fst).filter (fun col => countOf c col == kk)
      = (c.filter (fun p => p.2 == kk)).map Prod.fst := by
  rw [palette_fst, List.filter_map]
  have hcongr : (sortByCountDesc (c.filter (fun p => p.2 > t))).filter
        ((fun col => countOf c col == kk) ∘ Prod.fst)
      = (sortByCountDesc (c.filter (fun p => p.2 > t))).filter (fun p => p.2 == kk) := by
    refine List.filter_congr ?_
    intro p hp
    rw [mem_sortByCountDesc] at hp
    obtain ⟨hpin, -⟩ := List.mem_filter.mp hp
    simp [Function.comp, countOf_eq_of_mem c p.1 p.2 hnd hpin]
  rw [hcongr, filter_sortByCountDesc, List.filter_filter]
  congr 1
  refine List.filter_congr ?_
  intro p _
  by_cases hpk : p.2 = kk
  · subst hpk
    simp [hk]
  · simp [hpk]

end Sub

open Sub

/-- C1: the spec says that when the final candidate of a fallback chain fails
to resolve, its top-level segment is tried as a last resort.  In the code the
guard compares the `$`-stripped loop name with the unstripped last candidate
(`var_name == var_names[-1]` after `var_name = var_name[1:]`), so the branch
never fires: with bindings `{c = "x"}`, the chain `"$c.d"` yields `null` even
though the top-level key `c` resolves to the usable scalar `"x"`.  This
theorem evaluates the code at that failing input. -/
theorem claim_C1_parent_fallback_never_fires :
    resolvePath ("c") (Val.dict [("c", .str "x")]) = some (.str "x") ∧
    substitute_variables 8 ("\"$c.d\"") (Val.dict [("c", .str "x")]) false true
      = .ok ("null") :=
  ⟨rfl, rfl⟩

/-- C2: alpha-token round trip.  Resolving `"$a..7f"` where `a` is bound to
`"#112233"` yields `"#1122337f"` (and materializes as the quoted string);
where `a` is unbound, resolution yields no value and the materializer
substitutes `null` — never a malformed partial string. -/
theorem claim_C2_alpha_round_trip :
    resolve_variable 8 ("a..7f") (Val.dict [("a", .str "#112233")])
      = .ok (some (.str "#1122337f")) ∧
    substitute_variables 8 ("\"$a..7f\"") (Val.dict [("a", .str "#112233")]) false true
      = .ok ("\"#1122337f\"") ∧
    resolve_variable 8 ("a..7f") (Val.dict []) = .ok none ∧
    substitute_variables 8 ("\"$a..7f\"") (Val.dict []) false true = .ok ("null") :=
  ⟨rfl, rfl, rfl, rfl⟩

/-- C3 counterexample: the claim says each literal-color override contributes
exactly 1 to a color's total frequency.  With no variables and the single
override `{"k": "#112233"}`, the code's counter holds 2 for `#112233` (the
override scan at lines 556-559 runs again verbatim at lines 566-569 over the
same override map), while the claimed frequency is 1. -/
theorem claim_C3_counterexample :
    colorCounterFull [] [("k", Val.str "#112233")] []
      = .ok ([("#112233", 2)], [("k", Val.str "#112233")], []) ∧
    specFrequency [] [("k", Val.str "#112233")] ("#112233") = 1 ∧
    (2 : Nat) ≠ 1 :=
  ⟨rfl, rfl, by decide⟩

/-- C3 amended: with an empty variable-to-path map (so the cleanup pass adds
no overrides), a color's total frequency as the code counts it equals the sum
of the histogram counts at its canonical base plus exactly *2* for each
truthy literal-color override with that base — each override is counted once
before and once after the cleanup pass. -/
theorem claim_C3_amended (vars : List (String × List (Val × Nat)))
    (ovr : List (String × Val)) (c3 : List (String × Nat))
    (ovr2 sv : List (String × Val)) (base : String)
    (h : colorCounterFull vars ovr [] = .ok (c3, ovr2, sv)) :
    countOf c3 base = specHistSum vars base + 2 * specOvrCount ovr base := by
  unfold colorCounterFull at h
  cases h1 : countsFromVariables [] vars with
  | error e => rw [h1] at h; simp at h
  | ok c1 =>
    rw [h1] at h; rw [exbind_ok] at h
    cases h2 : countsFromOverrides c1 ovr with
    | error e => rw [h2] at h; simp at h
    | ok c2 =>
      rw [h2] at h; rw [exbind_ok] at h
      cases h3 : sortedVariablesOf vars with
      | error e => rw [h3] at h; simp at h
      | ok sv0 =>
        rw [h3] at h; rw [exbind_ok] at h
        rw [show cleanup_variables sv0 [] ovr = .ok (ovr, []) from rfl] at h
        rw [exbind_ok] at h
        dsimp only at h
        cases h4 : countsFromOverrides c2 ovr with
        | error e => rw [h4] at h; simp at h
        | ok c3' =>
          rw [h4] at h; simp at h
          obtain ⟨hc, _, _⟩ := h
          subst hc
          have e1 := countOf_countsFromVariables vars [] c1 base h1
          have e2 := countOf_countsFromOverrides ovr c1 c2 base h2
          have e3 := countOf_countsFromOverrides ovr c2 c3' base h4
          have e0 : countOf [] base = 0 := rfl
          omega

/-- C3 amended, witness at a concrete input. -/
theorem claim_C3_amended_witness :
    countOf [("#112233", 2)] ("#112233")
      = specHistSum [] ("#112233")
        + 2 * specOvrCount [("k", Val.str "#112233")] ("#112233") :=
  claim_C3_amended [] [("k", Val.str "#112233")] [("#112233", 2)]
    [("k", Val.str "#112233")] [] ("#112233") rfl

/-- C5 counterexample: the claim says a `false` override value is stored as
null whether the key is plain or dotted.  For the plain top-level key `"k"`
the assignment at line 222 happens before the `False`-to-`None`
normalization at lines 259-260, so the boolean `false` itself is stored. -/
theorem claim_C5_counterexample :
    apply_direct_overrides 3 [] (Val.dict []) [("k", Val.bool false)]
      = .ok [("k", Val.bool false)] ∧
    (Val.bool false : Val) ≠ Val.null :=
  ⟨rfl, by simp⟩

/-- C5 amended: the `False`-to-`None` normalization applies only to
dotted-path keys.  (a) A plain top-level key stores the boolean `false`
itself.  (b) The post-walk assignment of a dotted path normalizes: storing
`false` behaves exactly like storing `null` at the addressed key.  (c) On a
dotted path the stored value is indeed `null`. -/
theorem claim_C5_amended :
    (∀ (f : Nat) (theme : List (String × Val)) (toml : Val) (k : String),
       hasChar '.' k.data = false →
       apply_direct_overrides f theme toml [(k, .bool false)]
         = .ok (dictSet theme k (.bool false))) ∧
    (∀ (p : Seg) (cur : Val),
       finishAssign (Val.bool false) p cur = finishAssign Val.null p cur) ∧
    (∀ (f : Nat) (toml : Val),
       apply_direct_overrides f [] toml [("x.y", .bool false)]
         = .ok [("x", Val.dict [("y", Val.null)])]) := by
  refine ⟨?_, ?_, ?_⟩
  · intro f theme toml k h
    simp [apply_direct_overrides, h]
  · intro p cur
    rfl
  · intro f toml
    rfl

/-- C5 amended, witness at concrete inputs. -/
theorem claim_C5_amended_witness :
    apply_direct_overrides 1 [("a", Val.int 3)] (Val.dict []) [("k", .bool false)]
      = .ok [("a", Val.int 3), ("k", Val.bool false)] ∧
    finishAssign (Val.bool false) (Seg.str "y") (Val.dict [("y", Val.null)])
      = finishAssign Val.null (Seg.str "y") (Val.dict [("y", Val.null)]) ∧
    apply_direct_overrides 1 [] (Val.dict []) [("x.y", .bool false)]
      = .ok [("x", Val.dict [("y", Val.null)])] :=
  ⟨claim_C5_amended.1 1 [("a", Val.int 3)] (Val.dict []) ("k") rfl,
   claim_C5_amended.2.1 (Seg.str "y") (Val.dict [("y", Val.null)]),
   claim_C5_amended.2.2 1 (Val.dict [])⟩

/-- C6: the spec says a deletion path with a missing intermediate container
is silently skipped, leaving the theme entirely unchanged.  The `continue` at
line 126 (marked `TODO: FIX THIS` in the source) only skips the missing
*segment*, so the walk stays at the same container: deleting `"a.b"` from
`{"b": 2}`, where the intermediate `"a"` is missing, removes the top-level
key `"b"`.  This theorem evaluates the code at that failing input. -/
theorem claim_C6_deletion_wrong_level :
    applyOneDeletion (Val.dict [("b", .int 2)]) ("a.b") = .ok (Val.dict []) ∧
    (Val.dict [] : Val) ≠ Val.dict [("b", .int 2)] :=
  ⟨rfl, by simp⟩

/-- C7: applying the wildcard override key `"button.*"` to a subtree with
sibling keys `button.background`, `button.border`, `buttons.background` (and
another unrelated key) assigns the override value to exactly
`button.background` and `button.border`; `buttons.background` and every other
key keep their previous values.  General over the sibling string values and
over any non-`$` override string. -/
theorem claim_C7_wildcard_exact_keys (f : Nat) (toml : Val) (s1 s2 s3 s4 ov : String)
    (h : hasChar '$' ov.data = false) :
    apply_overrides f
      [("button.background", .str s1), ("button.border", .str s2),
       ("buttons.background", .str s3), ("text", .str s4)]
      toml [("button.*", .str ov)]
    = .ok [("button.background", .str ov), ("button.border", .str ov),
       ("buttons.background", .str s3), ("text", .str s4)] := by
  have hres : resolveOv f toml (.str ov) = .ok (.str ov) := by
    unfold resolveOv
    by_cases ht : truthyVal (.str ov) <;> simp [ht, valHasDollar, h]
  have hm1 : match_wildcard ("button.*") ("button.background") = .ok true := rfl
  have hm2 : match_wildcard ("button.*") ("button.border") = .ok true := rfl
  have hm3 : match_wildcard ("button.*") ("buttons.background") = .ok false := rfl
  have hm4 : match_wildcard ("button.*") ("text") = .ok false := rfl
  simp [apply_overrides, hres, find_matching_keys, hm1, hm2, hm3, hm4,
    applyOvKeys, applyOvKey, lookupStr, typeTag, dictSet]

/-- C7 witness: concrete sibling values and override. -/
theorem claim_C7_wildcard_exact_keys_witness :
    apply_overrides 1
      [("button.background", .str "#111111"), ("button.border", .str "#222222"),
       ("buttons.background", .str "#333333"), ("text", .str "#444444")]
      (Val.dict []) [("button.*", .str "#999999")]
    = .ok [("button.background", .str "#999999"), ("button.border", .str "#999999"),
       ("buttons.background", .str "#333333"), ("text", .str "#444444")] :=
  claim_C7_wildcard_exact_keys 1 (Val.dict []) ("#111111") ("#222222") ("#333333")
    ("#444444") ("#999999") rfl

/-- C8 counterexample: the claim says a boolean-valued variable never raises.
With the alpha-token placeholder `"$a..7f"` and `a` bound to `True`, the
truthy boolean reaches `re.search(ALPHA_PATTERN, value)` at line 46, which
raises `TypeError` — substitution errors instead of degrading to null. -/
theorem claim_C8_counterexample :
    substitute_variables 8 ("\"$a..7f\"") (Val.dict [("a", .bool true)]) false true
      = .error () :=
  rfl

/-- C8 amended: booleans are never *emitted* as substitution results.
Without an alpha token, a candidate resolving to a boolean is skipped — the
candidate loop moves on to the rest of the fallback chain (yielding `null`
when nothing remains).  With an alpha token, a variable resolving to `False`
is treated as absent, but one resolving to `True` raises a `TypeError`
inside `resolve_variable` rather than being treated as absent. -/
theorem claim_C8_amended :
    (∀ (f : Nat) (recur : String → Bool → Except Unit String) (toml : Val) (q : Bool)
       (last vn : List Char) (rest : List (List Char)) (b : Bool),
       vn.head? = some '$' →
       findAlpha (String.mk (vn.drop 1)) = none →
       resolvePath (String.mk (vn.drop 1)) toml = some (.bool b) →
       replacerList f recur toml q last (vn :: rest)
         = replacerList f recur toml q last rest) ∧
    (∀ (f : Nat) (varName : String) (toml : Val) (alpha : List Char),
       findAlpha varName = some alpha →
       resolvePath (String.mk (pyReplace ('.' :: '.' :: alpha) [] varName.data)) toml
         = some (.bool false) →
       resolve_variable f varName toml = .ok none) ∧
    (∀ (f : Nat) (varName : String) (toml : Val) (alpha : List Char),
       findAlpha varName = some alpha →
       resolvePath (String.mk (pyReplace ('.' :: '.' :: alpha) [] varName.data)) toml
         = some (.bool true) →
       resolve_variable f varName toml = .error ()) := by
  refine ⟨?_, ?_, ?_⟩
  · intro f recur toml q last vn rest b h1 h2 h3
    simp only [List.drop_one] at h2 h3
    rw [replacerList]
    simp [h1, resolve_variable, h2, h3, isBoolVal]
  · intro f varName toml alpha h1 h2
    rw [resolve_variable]
    simp [h1, h2, derefChain, isFalsy]
  · intro f varName toml alpha h1 h2
    rw [resolve_variable]
    simp [h1, h2, derefChain, isFalsy]

/-- C8 amended, witness at concrete inputs: a boolean candidate is skipped to
`null`; `"$a..7f"` with `a = False`/`a = True` yields `None`/a type error. -/
theorem claim_C8_amended_witness :
    replacerList 1 (fun _ _ => .ok "") (Val.dict [("a", .bool true)]) true
        ['$', 'a'] [['$', 'a']]
      = replacerList 1 (fun _ _ => .ok "") (Val.dict [("a", .bool true)]) true
        ['$', 'a'] [] ∧
    resolve_variable 1 ("a..7f") (Val.dict [("a", .bool false)]) = .ok none ∧
    resolve_variable 1 ("a..7f") (Val.dict [("a", .bool true)]) = .error () :=
  ⟨claim_C8_amended.1 1 (fun _ _ => .ok "") (Val.dict [("a", .bool true)]) true
      ['$', 'a'] ['$', 'a'] [] true rfl rfl rfl,
   claim_C8_amended.2.1 1 ("a..7f") (Val.dict [("a", .bool false)]) ['7', 'f'] rfl rfl,
   claim_C8_amended.2.2 1 ("a..7f") (Val.dict [("a", .bool true)]) ['7', 'f'] rfl rfl⟩

/-- C10: `apply_regex_overrides` modifies exactly the top-level keys at which
the regex pattern matches a prefix of the key name (`re.match` semantics):
each such key is set wholesale to the (resolved) override value and every
non-matching entry — its whole nested subtree included — is left unchanged.
The second conjunct demonstrates the prefix (not full-string) semantics:
pattern `button` matches key `buttons`.  Stated over the regex fragment the
embedding models. -/
theorem claim_C10_regex_prefix_frame :
    (∀ (f : Nat) (theme : List (String × Val)) (toml : Val) (pat : String)
       (ov ov' : Val) (ts : List RTok) (e : Bool),
       parseRegexToks (if pat.data.head? = some '^' then pat.data.drop 1 else pat.data)
         = some (ts, e) →
       resolveRegexOv f toml ov = .ok ov' →
       (theme.map Prod.fst).Nodup →
       apply_regex_overrides f theme toml [(pat, ov)]
         = .ok (theme.map (fun kv => if matchToks e ts kv.1.data then (kv.1, ov') else kv))) ∧
    reMatchAt ("button") ("buttons") = .ok true := by
  refine ⟨?_, rfl⟩
  intro f theme toml pat ov ov' ts e hp hres hnd
  rw [apply_regex_overrides, hres, exbind_ok, regexKeysGo_eq_foldl hp ov' _ theme,
    exbind_ok, foldl_set_eq_map _ ov' theme hnd]
  rfl

/-- C10 witness: pattern `button` rewrites the key `buttons` (prefix match)
and leaves the non-matching entry untouched. -/
theorem claim_C10_regex_prefix_frame_witness :
    apply_regex_overrides 1 [("buttons", Val.str "v"), ("text", Val.str "u")] (Val.dict [])
      [("button", Val.str "w")]
    = .ok [("buttons", Val.str "w"), ("text", Val.str "u")] :=
  claim_C10_regex_prefix_frame.1 1 [("buttons", Val.str "v"), ("text", Val.str "u")]
    (Val.dict []) ("button") (Val.str "w") (Val.str "w")
    [.lit 'b', .lit 'u', .lit 't', .lit 't', .lit 'o', .lit 'n'] false rfl rfl (by simp)


/-- C9: the deletion-key scan of reverse extraction mutates its
concrete-theme input.  For a key whose template value is a list strictly
longer than the theme's list, whenever `get_delete_keys` succeeds the
returned theme holds a list of the template's length whose tail beyond the
original length is exactly the template's surplus items — the theme is not
left unchanged. -/
theorem claim_C9_surplus_items_appended (n : Nat) (k : String) (ts vs : List Val) (pfx : String)
    (dks : List String) (th' : Val)
    (hlen : vs.length < ts.length)
    (h : get_delete_keys n (Val.dict [(k, .list ts)]) (Val.dict [(k, .list vs)]) pfx
      = .ok (dks, th')) :
    ∃ vs', th' = Val.dict [(k, .list vs')] ∧ vs'.length = ts.length ∧
      vs'.drop vs.length = ts.drop vs.length ∧ vs' ≠ vs := by
  cases n with
  | zero => exact absurd h (by simp [get_delete_keys])
  | succ m =>
    have hunf : get_delete_keys (m + 1) (Val.dict [(k, .list ts)])
        (Val.dict [(k, .list vs)]) pfx
        = gdkEntries (get_delete_keys m) [(k, .list ts)] (Val.dict [(k, .list vs)]) pfx := rfl
    rw [hunf, gdkEntries] at h
    have hmem : jmemDel (.str k) (Val.dict [(k, Val.list vs)]) = .ok true := by
      simp [jmemDel, segInDict, lookupStr]
    have hget : jgetDel (.str k) (Val.dict [(k, Val.list vs)]) = .ok (Val.list vs) := by
      simp [jgetDel, lookupStr]
    rw [hmem] at h
    simp only [exbind_ok, Bool.not_true, Bool.false_eq_true, if_false] at h
    rw [hget] at h
    simp only [exbind_ok] at h
    cases hl : gdkList (get_delete_keys m) ts vs 0 (mkFullKey pfx k) with
    | error e => rw [hl] at h; simp at h
    | ok p =>
      rw [hl] at h
      obtain ⟨d1, vs'⟩ := p
      simp only [exbind_ok] at h
      have hset : setAt (Val.dict [(k, Val.list vs)]) (.str k) (Val.list vs')
          = .ok (Val.dict [(k, Val.list vs')]) := by
        simp [setAt, dictSet]
      rw [hset] at h
      simp only [exbind_ok, gdkEntries] at h
      simp at h
      obtain ⟨-, hth⟩ := h
      obtain ⟨h1, h2⟩ := gdkList_surplus (get_delete_keys m) (mkFullKey pfx k)
        ts vs 0 d1 vs' (Nat.zero_le _) hl
      refine ⟨vs', hth.symm, ?_, ?_, ?_⟩
      · rw [h1]; omega
      · simpa using h2
      · intro hh
        rw [hh] at h1
        simp at h1
        omega

/-- C9 witness: template list `["a","b","c"]` against theme list `["x"]`
appends the surplus items `"b"`, `"c"` in place. -/
theorem claim_C9_surplus_items_appended_witness :
    ∃ vs', Val.dict [("k", Val.list [Val.str "x", Val.str "b", Val.str "c"])]
        = Val.dict [("k", Val.list vs')] ∧
      vs'.length = ([Val.str "a", Val.str "b", Val.str "c"] : List Val).length ∧
      vs'.drop 1 = ([Val.str "a", Val.str "b", Val.str "c"] : List Val).drop 1 ∧
      vs' ≠ [Val.str "x"] :=
  claim_C9_surplus_items_appended 3 ("k") [Val.str "a", Val.str "b", Val.str "c"]
    [Val.str "x"] ("") []
    (Val.dict [("k", Val.list [Val.str "x", Val.str "b", Val.str "c"])])
    (by decide) rfl


/-- C4 counterexample: the claim's "total frequency" (histogram counts plus
one per literal-color override, per C3's sentence) of `#112233` at the input
with one override and threshold 1 is 1, which is not strictly greater than
the threshold — yet the code names the color `$colors.color1`, because its
own counter holds 2 (the override is double-counted). -/
theorem claim_C4_counterexample :
    handle_colors [] [("k", Val.str "#112233")] [] 1
      = .ok ([("#112233", "$colors.color1")], [], [("k", Val.str "$colors.color1")]) ∧
    specFrequency [] [("k", Val.str "#112233")] ("#112233") = 1 ∧
    ¬ ((1 : Nat) > 1) :=
  ⟨rfl, rfl, by decide⟩

/-- C4 amended: with frequency read off the code's own counter (`c3`, the
counter after both override scans and the cleanup pass), whenever
`handle_colors` succeeds: a color receives a palette name iff its counted
frequency strictly exceeds the threshold; the names are the sequential
`$colors.color1`, `$colors.color2`, ... and are all distinct; the palette is
ordered by non-increasing frequency; and within each frequency class the
palette preserves the counter's first-seen order (stability). -/
theorem claim_C4_amended (vars : List (String × List (Val × Nat)))
    (ovr : List (String × Val)) (vmap : List (String × List (String × Val)))
    (t : Nat) (pal : List (String × String)) (sv so : List (String × Val))
    (h : handle_colors vars ovr vmap t = .ok (pal, sv, so)) :
    ∃ c3 ovr2 sv0, colorCounterFull vars ovr vmap = .ok (c3, ovr2, sv0) ∧
      pal = paletteOfCounter c3 t ∧
      (∀ col, (∃ nm, (col, nm) ∈ pal) ↔ countOf c3 col > t) ∧
      pal.map Prod.snd = (List.range pal.length).map (fun i => mkColorName (i + 1)) ∧
      (pal.map Prod.snd).Nodup ∧
      List.Pairwise (fun a b => countOf c3 a ≥ countOf c3 b) (pal.map Prod.fst) ∧
      (∀ kk, kk > t →
        (pal.map Prod.fst).filter (fun col => countOf c3 col == kk)
          = (c3.filter (fun p => p.2 == kk)).map Prod.fst) := by
  unfold handle_colors at h
  cases hc : colorCounterFull vars ovr vmap with
  | error e => rw [hc] at h; simp at h
  | ok q =>
    rw [hc] at h
    obtain ⟨c3, ovr2, sv0⟩ := q
    simp only [exbind_ok] at h
    cases hr1 : rewriteVariables (paletteOfCounter c3 t) sv0 with
    | error e => rw [hr1] at h; simp at h
    | ok sv1 =>
      rw [hr1] at h
      simp only [exbind_ok] at h
      cases hr2 : rewriteOverrides (paletteOfCounter c3 t) ovr2 with
      | error e => rw [hr2] at h; simp at h
      | ok so1 =>
        rw [hr2] at h
        simp only [exbind_ok] at h
        simp at h
        obtain ⟨hpal, -, -⟩ := h
        have hnd := nodup_colorCounterFull vars ovr vmap c3 ovr2 sv0 hc
        refine ⟨c3, ovr2, sv0, ?_, ?_, ?_, ?_, ?_, ?_, ?_⟩
        · rfl
        · exact hpal.symm
        · rw [← hpal]
          exact fun col => palette_mem_iff c3 t hnd col
        · rw [← hpal]
          exact palette_snd c3 t
        · rw [← hpal]
          exact palette_names_nodup c3 t
        · rw [← hpal]
          exact palette_desc c3 t hnd
        · rw [← hpal]
          exact fun kk hk => palette_stability c3 t hnd kk hk

/-- C4 amended, witness at the concrete input of the counterexample. -/
theorem claim_C4_amended_witness :
    ∃ c3 ovr2 sv0,
      colorCounterFull [] [("k", Val.str "#112233")] [] = .ok (c3, ovr2, sv0) ∧
      ([("#112233", "$colors.color1")] : List (String × String))
        = paletteOfCounter c3 1 ∧
      (∀ col, (∃ nm, (col, nm) ∈ ([("#112233", "$colors.color1")] : List (String × String)))
        ↔ countOf c3 col > 1) ∧
      ([("#112233", "$colors.color1")] : List (String × String)).map Prod.snd
        = (List.range ([("#112233", "$colors.color1")] : List (String × String)).length).map
            (fun i => mkColorName (i + 1)) ∧
      (([("#112233", "$colors.color1")] : List (String × String)).map Prod.snd).Nodup ∧
      List.Pairwise (fun a b => countOf c3 a ≥ countOf c3 b)
        (([("#112233", "$colors.color1")] : List (String × String)).map Prod.fst) ∧
      (∀ kk, kk > 1 →
        (([("#112233", "$colors.color1")] : List (String × String)).map Prod.fst).filter
            (fun col => countOf c3 col == kk)
          = (c3.filter (fun p => p.2 == kk)).map Prod.fst) :=
  claim_C4_amended [] [("k", Val.str "#112233")] [] 1
    [("#112233", "$colors.color1")] [] [("k", Val.str "$colors.color1")] rfl
